import Mathlib

/-!
Verification development for the AparGestion repository.

The repository's algorithmic core consists of
  * an iCal feed parser (src/features/calendar/services/iCalParser.ts),
  * booking merge / conflict checking (useBookingSync hook) over the
    Zustand calendar store (src/core/stores/calendarStore.ts),
  * a Word (OOXML) template placeholder extractor and renderer
    (templateService and contractBuilder).

The code is TypeScript operating on JS strings; we embed it shallowly:
strings become `List Char`, JS `Date` values become a symbolic `JSDate`
(for parsing) or their epoch-milliseconds value `Option Int` (for
comparisons; `none` models an invalid date, whose comparisons are all
false in JS), fallible functions return `Except`/`Option`, and each JS
regex used by the code is implemented as the equivalent explicit scanner
over `List Char` (the regexes involved are all of the form
literal-prefix / character-class / literal-suffix, so their leftmost,
global, non-overlapping match semantics are reproduced exactly).
-/

namespace AparGestion

/-- Convert a Lean string literal to the character-list representation used
throughout this development. -/
def str (s : String) : List Char := s.data

/-! ## Generic text primitives (JS string operations) -/

/-- Split at the first occurrence of the literal pattern `p`:
`splitFirst p s = some (before, after)` with `s = before ++ p ++ after`,
choosing the leftmost occurrence; `none` when `p` does not occur.
This models `String.prototype.indexOf` plus the surrounding substrings. -/
def splitFirst (p : List Char) : List Char → Option (List Char × List Char)
  | [] => if p = [] then some ([], []) else none
  | a :: s =>
    if p.isPrefixOf (a :: s) then some ([], (a :: s).drop p.length)
    else (splitFirst p s).map fun pr => (a :: pr.1, pr.2)

theorem splitFirst_length (p : List Char) :
    ∀ s pr, splitFirst p s = some pr →
      pr.1.length + p.length + pr.2.length = s.length := by
  intro s
  induction s with
  | nil =>
    intro pr h
    simp only [splitFirst] at h
    split at h
    · rename_i hp
      cases h
      simp [hp]
    · cases h
  | cons a s ih =>
    intro pr h
    simp only [splitFirst] at h
    split at h
    · rename_i hp
      cases h
      have hple : p.length ≤ (a :: s).length := by
        have := List.isPrefixOf_iff_prefix.mp hp
        exact this.length_le
      simp only [List.length_drop, List.length_nil]
      omega
    · rcases hq : splitFirst p s with _ | q
      · rw [hq] at h; cases h
      · rw [hq] at h
        simp only [Option.map_some'] at h
        cases h
        have := ih q hq
        simp only [List.length_cons]
        omega

theorem splitFirst_some_shorter (p : List Char) (s : List Char) (pr : List Char × List Char)
    (hp : p ≠ []) (h : splitFirst p s = some pr) : pr.2.length < s.length := by
  have := splitFirst_length p s pr h
  have : 1 ≤ p.length := by
    cases p with
    | nil => exact absurd rfl hp
    | cons c cs => simp
  omega

/-- JS `String.prototype.split` with a non-empty literal separator (the
empty-separator behaviour of JS is never used by the source). -/
def splitOnSep (sep : List Char) (s : List Char) : List (List Char) :=
  if h : sep = [] ∨ splitFirst sep s = none then [s]
  else
    let pr := (splitFirst sep s).getD ([], [])
    pr.1 :: splitOnSep sep pr.2
termination_by s.length
decreasing_by
  push_neg at h
  rcases hq : splitFirst sep s with _ | q
  · exact absurd hq h.2
  · simp only [hq, Option.getD_some]
    exact splitFirst_some_shorter sep s q h.1 hq

/-- Split on a single character separator (JS `split` with a one-character
separator); structurally recursive form. -/
def splitChar (c : Char) : List Char → List (List Char)
  | [] => [[]]
  | a :: s =>
    if a = c then [] :: splitChar c s
    else
      match splitChar c s with
      | [] => [[a]]
      | t :: ts => (a :: t) :: ts

/-- The whitespace class used for JS `trim` and `\s`; we use Lean's
`Char.isWhitespace` (space, tab, CR, LF), which covers every whitespace
character occurring in the data this code processes. -/
def jsWhitespace (c : Char) : Bool := c.isWhitespace

/-- JS `String.prototype.trim`. -/
def trimJS (s : List Char) : List Char :=
  ((s.dropWhile jsWhitespace).reverse.dropWhile jsWhitespace).reverse

/-- JS split on the regex `\r?\n` (used for iCal lines): equivalent to
splitting on the newline character and then stripping one trailing
carriage return from each piece. -/
def stripTrailingCR (l : List Char) : List Char :=
  match l.reverse with
  | '\r' :: rest => rest.reverse
  | _ => l

def splitLines (s : List Char) : List (List Char) :=
  (splitChar '\n' s).map stripTrailingCR

/-- JS `String.prototype.includes` with a literal pattern. -/
def containsSub (p s : List Char) : Bool := (splitFirst p s).isSome

/-- JS `String.prototype.replace` with a global regex denoting the literal
pattern `p` and a replacement string `r`: leftmost, non-overlapping,
single pass (the replacement text `r` is never rescanned).  The `$`
escape sequences of JS replacement strings are not modelled: every
replacement this code performs inserts HTML-escaped user text, and the
claims checked here do not depend on `$` handling. -/
def replaceAll (p r : List Char) : List Char → List Char
  | [] => []
  | a :: s =>
    if p ≠ [] ∧ p.isPrefixOf (a :: s) then
      r ++ replaceAll p r ((a :: s).drop p.length)
    else
      a :: replaceAll p r s
termination_by s => s.length
decreasing_by
  · rename_i h
    obtain ⟨hp, _⟩ := h
    have : 1 ≤ p.length := by
      cases p with
      | nil => exact absurd rfl hp
      | cons c cs => simp
    simp only [List.length_drop, List.length_cons]
    omega
  · simp

/-! ## iCal parser (src/features/calendar/services/iCalParser.ts) -/

/-- A JS `Date` as constructed by `parseICalDate`: either
`new Date(Date.UTC(y, mo, d, h, min))` or the local-time midnight
`new Date(y, mo, d)`.  Components are the results of `parseInt` on the
positional substrings; `none` models `NaN` (a component of an invalid
date).  The month component is 0-based, exactly as passed to the JS
constructors by the source (`parseInt(...) - 1`). -/
inductive JSDate where
  | utc (year month day hour minute : Option Int)
  | localMidnight (year month day : Option Int)
deriving DecidableEq

/-- Maximal leading decimal-digit run of `s`, as a number; `none` when `s`
does not start with a digit (JS `parseInt` returns `NaN`). -/
def digitsPrefixVal (s : List Char) : Option Nat :=
  let ds := s.takeWhile Char.isDigit
  if ds = [] then none
  else some (ds.foldl (fun acc c => 10 * acc + (c.toNat - 48)) 0)

/-- JS `parseInt(s)` restricted to base 10: skip leading whitespace, an
optional sign, then the maximal digit run; `none` models `NaN`.
(The `0x` hexadecimal auto-detection of `parseInt` is not modelled; the
source only applies `parseInt` to positional digit substrings.) -/
def parseIntJS (s : List Char) : Option Int :=
  let t := s.dropWhile jsWhitespace
  if t.take 1 = ['-'] then (digitsPrefixVal (t.drop 1)).map (fun n => -(n : Int))
  else if t.take 1 = ['+'] then (digitsPrefixVal (t.drop 1)).map (fun n => (n : Int))
  else (digitsPrefixVal t).map (fun n => (n : Int))

/-- The `substring(a, b)` of JS for `a ≤ b` (as used positionally in
`parseICalDate`). -/
def subStr (a b : Nat) (s : List Char) : List Char := (s.drop a).take (b - a)

/-- Zero-padded `w`-digit decimal numeral of `n` (a modelling primitive
used to build concrete `YYYYMMDD` values in statements). -/
def padNum (w n : Nat) : List Char :=
  match w with
  | 0 => []
  | Nat.succ w' => padNum w' (n / 10) ++ [Nat.digitChar (n % 10)]

/-- The `line.substring(line.indexOf(':') + 1)` step of `parseICalDate`:
everything after the first colon, or the whole line when there is none
(`indexOf` is `-1` and `substring(0)` is the whole string). -/
def icalDateValue (line : List Char) : List Char :=
  match splitFirst (str ":") line with
  | some pr => pr.2
  | none => line

/-- The trimmed date string `parseICalDate` works on. -/
def icalDateStr (line : List Char) : List Char := trimJS (icalDateValue line)

/-- Model of `parseICalDate` (iCalParser.ts:64-81): read the positional
format `YYYYMMDD[THHmmssZ]` from the trimmed post-colon value: an
8-character value becomes a local midnight, a longer one a UTC instant
(the seconds digits are ignored by the code; the month is made
0-based). -/
def parseICalDate (line : List Char) : JSDate :=
  if (icalDateStr line).length > 8 then
    JSDate.utc (parseIntJS (subStr 0 4 (icalDateStr line)))
      ((parseIntJS (subStr 4 6 (icalDateStr line))).map (fun n => n - 1))
      (parseIntJS (subStr 6 8 (icalDateStr line)))
      (parseIntJS (subStr 9 11 (icalDateStr line)))
      (parseIntJS (subStr 11 13 (icalDateStr line)))
  else
    JSDate.localMidnight (parseIntJS (subStr 0 4 (icalDateStr line)))
      ((parseIntJS (subStr 4 6 (icalDateStr line))).map (fun n => n - 1))
      (parseIntJS (subStr 6 8 (icalDateStr line)))

/-- Structured iCal event.  The TS interface declares `summary : string`,
but the value is produced by an unchecked cast of a partial record and can
be `undefined` at runtime, so it is modelled as optional (consumers guard
with `event.summary || ...`). -/
structure ICalEvent where
  uid : List Char
  summary : Option (List Char)
  dtstart : JSDate
  dtend : JSDate
  description : Option (List Char)
deriving DecidableEq

/-- The partially filled event record built line by line. -/
structure PartialEvent where
  uid : Option (List Char) := none
  summary : Option (List Char) := none
  dtstart : Option JSDate := none
  dtend : Option JSDate := none
  description : Option (List Char) := none
deriving DecidableEq

/-- One iteration of the line loop of `parseEventBlock`
(iCalParser.ts:43-55): an ordered `startsWith` chain. -/
def readEventLine (ev : PartialEvent) (line : List Char) : PartialEvent :=
  if (str "UID:").isPrefixOf line then
    { ev with uid := some (trimJS (line.drop 4)) }
  else if (str "SUMMARY:").isPrefixOf line then
    { ev with summary := some (trimJS (line.drop 8)) }
  else if (str "DTSTART").isPrefixOf line then
    { ev with dtstart := some (parseICalDate line) }
  else if (str "DTEND").isPrefixOf line then
    { ev with dtend := some (parseICalDate line) }
  else if (str "DESCRIPTION:").isPrefixOf line then
    { ev with description := some (trimJS (line.drop 12)) }
  else ev

/-- The final guard of `parseEventBlock`: JS truthiness of
`event.uid && event.dtstart && event.dtend` — a `Date` is always truthy,
but an empty `uid` string is falsy, so a present-but-empty UID also drops
the block. -/
def finishEvent (ev : PartialEvent) : Option ICalEvent :=
  match ev.uid, ev.dtstart, ev.dtend with
  | some u, some ds, some de =>
    if u = [] then none
    else some { uid := u, summary := ev.summary, dtstart := ds, dtend := de,
                description := ev.description }
  | _, _, _ => none

/-- Model of `parseEventBlock` (iCalParser.ts:39-62): fold the `startsWith`
chain over the block's lines, then apply the completeness guard. -/
def parseEventBlock (content : List Char) : Option ICalEvent :=
  finishEvent ((splitLines content).foldl readEventLine {})

/-- The `block.substring(0, block.indexOf('END:VEVENT'))` step of
`parseICalString`: when the marker is absent, `indexOf` is `-1` and
`substring(0, -1)` is the empty string. -/
def cutAtEndMarker (block : List Char) : List Char :=
  match splitFirst (str "END:VEVENT") block with
  | some pr => pr.1
  | none => []

/-- Model of `parseICalString` (iCalParser.ts:19-37): split on
`BEGIN:VEVENT`, skip the prologue chunk (the loop starts at index 1), cut
each block at `END:VEVENT` and keep the successfully parsed events, in
source order.  Total: a feed with no valid event yields `[]`, never an
error. -/
def parseICalString (s : List Char) : List ICalEvent :=
  match splitOnSep (str "BEGIN:VEVENT") s with
  | [] => []
  | _ :: blocks => blocks.filterMap (fun b => parseEventBlock (cutAtEndMarker b))

/-! ### Epoch value of a JSDate

`iCalEventsToBookings` stores `event.dtstart.toISOString()` and
`checkConflict` re-parses the stored string with `new Date(...)`,
recovering the same instant; we therefore represent a stored date string
by its epoch-milliseconds value directly.  The civil-calendar arithmetic
below reproduces the JS `Date` component normalisation (out-of-range
months and days roll over); its exact values are never relied on by the
claims, only its definiteness. -/

/-- Days from the epoch of the civil date with 0-based month `m` (possibly
out of range, rolled over as JS does) and day-of-month `d`. -/
def daysFromCivil (y m d : Int) : Int :=
  let y1 := y + m.ediv 12
  let mm := m.emod 12 + 1
  let yy := if mm ≤ 2 then y1 - 1 else y1
  let era := yy.ediv 400
  let yoe := yy - era * 400
  let doy := (153 * (mm + (if mm > 2 then -3 else 9)) + 2).ediv 5 + (d - 1)
  let doe := yoe * 365 + yoe.ediv 4 - yoe.ediv 100 + doy
  era * 146097 + doe - 719468

/-- Epoch milliseconds denoted by a `JSDate`; `tzOffsetMs` is the ambient
local-timezone offset (east of UTC, in milliseconds) that JS applies to a
`new Date(y, mo, d)` local midnight.  `none` models an invalid date (in
the real code `toISOString` on an invalid date throws, so such a booking
never actually reaches the store; the claims about a successfully parsed
feed are unaffected). -/
def jsDateEpoch (tzOffsetMs : Int) : JSDate → Option Int
  | JSDate.utc (some y) (some mo) (some d) (some h) (some mi) =>
      some (daysFromCivil y mo d * 86400000 + h * 3600000 + mi * 60000)
  | JSDate.utc _ _ _ _ _ => none
  | JSDate.localMidnight (some y) (some mo) (some d) =>
      some (daysFromCivil y mo d * 86400000 - tzOffsetMs)
  | JSDate.localMidnight _ _ _ => none

/-! ## Calendar store (src/core/stores/calendarStore.ts) and booking sync
hook (useBookingSync) -/

inductive BookingSource where
  | manual
  | booking
  | airbnb
  | other
deriving DecidableEq

inductive BookingStatus where
  | confirmed
  | pending
  | cancelled
  | checkedIn
deriving DecidableEq

/-- The store's `Booking` record.  The stored `startDate` / `endDate` ISO
strings are represented by their epoch-milliseconds value (`none` for an
invalid date): every use of these fields in the code first converts them
with `new Date(...)`, whose comparisons depend only on that value.
`totalPrice` is modelled over `Int` (its numeric semantics are never used
by the logic under verification). -/
structure Booking where
  id : String
  propertyId : String
  guestName : String
  startDate : Option Int
  endDate : Option Int
  source : BookingSource
  status : BookingStatus
  totalPrice : Option Int := none
  notes : Option String := none
deriving DecidableEq

/-- The Zustand calendar store state. -/
structure CalendarState where
  bookings : List Booking
  isLoading : Bool := false
  lastSyncDate : Option String := none
  syncError : Option String := none
deriving DecidableEq

/-- Store action `setBookings`. -/
def setBookings (bookings : List Booking) (st : CalendarState) : CalendarState :=
  { st with bookings := bookings }

/-- Store action `addBooking` (appends). -/
def addBooking (b : Booking) (st : CalendarState) : CalendarState :=
  { st with bookings := st.bookings ++ [b] }

/-- Store action `setSyncStatus`. -/
def setSyncStatus (lastSyncDate syncError : Option String) (st : CalendarState) :
    CalendarState :=
  { st with lastSyncDate := lastSyncDate, syncError := syncError }

/-- The `source` parameter type of `syncFromUrl` / `iCalEventsToBookings`:
TS restricts it to the non-manual platforms. -/
inductive ExternalSource where
  | booking
  | airbnb
  | other
deriving DecidableEq

def ExternalSource.toSource : ExternalSource → BookingSource
  | ExternalSource.booking => BookingSource.booking
  | ExternalSource.airbnb => BookingSource.airbnb
  | ExternalSource.other => BookingSource.other

/-- Model of `iCalEventsToBookings` (iCalParser.ts:86-103): each event
becomes a confirmed booking; `event.summary || 'Reserva Externa'` falls
back when the summary is absent or empty (JS falsiness of the empty
string). -/
def iCalEventsToBookings (tzOffsetMs : Int) (events : List ICalEvent)
    (source : ExternalSource) : List Booking :=
  events.map fun e =>
    { id := String.mk e.uid
      propertyId := "default"
      guestName :=
        match e.summary with
        | some s => if s = [] then "Reserva Externa" else String.mk s
        | none => "Reserva Externa"
      startDate := jsDateEpoch tzOffsetMs e.dtstart
      endDate := jsDateEpoch tzOffsetMs e.dtend
      source := source.toSource
      status := BookingStatus.confirmed
      totalPrice := none
      notes := e.description.map String.mk }

/-- Outcome of the `fetch` of the iCal URL, as seen by `syncFromUrl`: a
successful response body, or a failure message (covering both a network
rejection and the `!response.ok` throw, which land in the same `catch`). -/
inductive FetchOutcome where
  | success (body : List Char)
  | failure (message : String)

structure SyncResult where
  success : Bool
  newBookings : Nat
  errors : List String
deriving DecidableEq

/-- Model of the `syncFromUrl` callback of `useBookingSync`
(success and catch paths).  `nowIso` stands for
`new Date().toISOString()`.  On success the store's booking list becomes
the prior manual bookings followed by the freshly converted external set;
`newBookings` counts the fetched bookings whose id was not already
present. -/
def syncFromUrl (tzOffsetMs : Int) (st : CalendarState) (fetched : FetchOutcome)
    (source : ExternalSource) (nowIso : String) : CalendarState × SyncResult :=
  match fetched with
  | FetchOutcome.failure msg =>
      (setSyncStatus none (some msg) st, ⟨false, 0, [msg]⟩)
  | FetchOutcome.success icalText =>
      let events := parseICalString icalText
      let externalBookings := iCalEventsToBookings tzOffsetMs events source
      let existingIds := st.bookings.map (fun b => b.id)
      let newItems := externalBookings.filter (fun b => !(existingIds.contains b.id))
      let manualBookings := st.bookings.filter (fun b => decide (b.source = BookingSource.manual))
      let updatedBookings := manualBookings ++ externalBookings
      let st1 := setBookings updatedBookings st
      let st2 := setSyncStatus (some nowIso) none st1
      (st2, ⟨true, newItems.length, []⟩)

/-- The caller-supplied part of a manual booking:
`Omit<Booking, 'id' | 'source'>`. -/
structure ManualBookingInput where
  propertyId : String
  guestName : String
  startDate : Option Int
  endDate : Option Int
  status : BookingStatus
  totalPrice : Option Int := none
  notes : Option String := none
deriving DecidableEq

/-- Model of `addManualBooking`: builds the booking with
`id = manual-${Date.now()}` (`nowMs` stands for `Date.now()`) and
`source = 'manual'`, appends it to the store, and returns it. -/
def addManualBooking (input : ManualBookingInput) (nowMs : Int) (st : CalendarState) :
    CalendarState × Booking :=
  let newBooking : Booking :=
    { id := "manual-" ++ toString nowMs
      propertyId := input.propertyId
      guestName := input.guestName
      startDate := input.startDate
      endDate := input.endDate
      source := BookingSource.manual
      status := input.status
      totalPrice := input.totalPrice
      notes := input.notes }
  (addBooking newBooking st, newBooking)

/-- JS `<` on two `Date` values: comparison of epoch values, false whenever
either side is invalid (`NaN`). -/
def ltD : Option Int → Option Int → Bool
  | some a, some b => decide (a < b)
  | _, _ => false

/-- The `if (excludeId && booking.id === excludeId) continue;` test of
`checkConflict`: an empty-string `excludeId` is falsy, so it excludes
nothing. -/
def matchesExclude (excludeId : Option String) (b : Booking) : Bool :=
  match excludeId with
  | some e => decide (e ≠ "") && decide (b.id = e)
  | none => false

/-- Model of the `checkConflict` callback of `useBookingSync`: a linear
scan over the store's bookings returning the first booking overlapping the
candidate half-open range (`start < bookingEnd && end > bookingStart`),
skipping a booking matched by `excludeId`.  The `start` / `endD` arguments
are the date values of the candidate range's ISO strings. -/
def checkConflict (bookings : List Booking) (start endD : Option Int)
    (excludeId : Option String) : Option Booking :=
  match bookings with
  | [] => none
  | b :: rest =>
    if matchesExclude excludeId b then checkConflict rest start endD excludeId
    else if ltD start b.endDate && ltD b.startDate endD then some b
    else checkConflict rest start endD excludeId

/-! ## Template service (templateService.ts) and contract builder
(src/features/documents/generators/contractBuilder.ts) -/

/-- The character class `[a-zA-Z_]` opening a placeholder identifier. -/
def identStartChar (c : Char) : Bool := c.isAlpha || c = '_'

/-- The character class `[a-zA-Z0-9_]` continuing a placeholder
identifier. -/
def identTailChar (c : Char) : Bool := identStartChar c || c.isDigit

/-- Whether `k` is a well-formed placeholder identifier
(`[a-zA-Z_][a-zA-Z0-9_]*`). -/
def isIdentChars (k : List Char) : Bool :=
  match k with
  | [] => false
  | c :: rest => identStartChar c && rest.all identTailChar

theorem dropWhile_cons_length {p : Char → Bool} {l t : List Char} {c : Char}
    (h : l.dropWhile p = c :: t) : t.length < l.length := by
  have hs := List.dropWhile_suffix (l := l) p
  rw [h] at hs
  have := hs.length_le
  simp only [List.length_cons] at this
  omega

/-- The repeated-`exec` loop of the global regex
`\{([a-zA-Z_][a-zA-Z0-9_]*)\}`: at each position, a match requires an
opening brace, an identifier (the star is effectively greedy: identifier
characters are never `}`, so backtracking cannot help) and a closing
brace; matches are leftmost and non-overlapping, scanning resumes after
the closing brace, and on failure at the next position. -/
def scanVars (s : List Char) : List (List Char) :=
  match s with
  | [] => []
  | c :: rest =>
    if c = '{' then
      match rest with
      | [] => []
      | d :: ds =>
        if h : identStartChar d ∧ (ds.dropWhile identTailChar).take 1 = ['}'] then
          (d :: ds.takeWhile identTailChar) :: scanVars ((ds.dropWhile identTailChar).drop 1)
        else scanVars (d :: ds)
    else scanVars rest
termination_by s.length
decreasing_by
  · simp only [List.length_drop, List.length_cons]
    exact lt_of_le_of_lt
      (le_trans (Nat.sub_le _ _) ((List.dropWhile_suffix _).length_le)) (by omega)
  · simp only [List.length_cons]
    omega
  · simp only [List.length_cons]
    omega

/-- The duplicate-avoiding accumulation loop shared by
`extractVariablesFromHtml` (templateService.ts:158-170) and
`extractPlaceholdersFromTemplate` (contractBuilder.ts:224-231):
`if (!acc.includes(x)) acc.push(x)`. -/
def dedupFirst {α : Type} [DecidableEq α] (l : List α) : List α :=
  l.foldl (fun acc x => if x ∈ acc then acc else acc ++ [x]) []

/-- Model of `extractVariablesFromHtml` (templateService.ts:158-170). -/
def extractVariablesFromHtml (html : List Char) : List (List Char) :=
  dedupFirst (scanVars html)

/-- The tag-stripping step `xmlContent.replace(/<[^>]+>/g, '')` of
`extractPlaceholdersFromTemplate`: each `<`, followed by at least one
non-`>` character and a `>`, is removed; an unmatched `<` is kept. -/
def stripTags (s : List Char) : List Char :=
  match s with
  | [] => []
  | c :: rest =>
    if h : c = '<' ∧ (rest.dropWhile (fun d => !(d = '>'))).take 1 = ['>']
           ∧ rest.takeWhile (fun d => !(d = '>')) ≠ [] then
      stripTags ((rest.dropWhile (fun d => !(d = '>'))).drop 1)
    else c :: stripTags rest
termination_by s.length
decreasing_by
  · simp only [List.length_drop, List.length_cons]
    exact lt_of_le_of_lt
      (le_trans (Nat.sub_le _ _) ((List.dropWhile_suffix _).length_le)) (by omega)
  · simp only [List.length_cons]
    omega

/-- Model of `escapeHtml` (identical in templateService.ts and
contractBuilder.ts): the sequential global replacements
`& → &amp;`, `< → &lt;`, `> → &gt;`, `" → &quot;`. -/
def escapeHtml (s : List Char) : List Char :=
  replaceAll (str "\"") (str "&quot;")
    (replaceAll (str ">") (str "&gt;")
      (replaceAll (str "<") (str "&lt;")
        (replaceAll (str "&") (str "&amp;") s)))

/-- The literal text denoted by the regex `new RegExp('\\{' + key + '\\}', 'g')`
built by `generatePdfFromTemplate` for an identifier key. -/
def varToken (k : List Char) : List Char := '{' :: (k ++ ['}'])

/-- The variable-substitution pass of `generatePdfFromTemplate`
(templateService.ts:294-304): one global find-and-replace of `{key}` by
the HTML-escaped value, run sequentially per entry of the record (in
`Object.entries` order); substituted text is never rescanned within one
replacement, and keys of a JS record are pairwise distinct. -/
def generatePdfProcessedHtml (html : List Char)
    (variableEntries : List (List Char × List Char)) : List Char :=
  variableEntries.foldl (fun acc kv => replaceAll (varToken kv.1) (escapeHtml kv.2) acc) html

/-- First match of the open-tag regex `PREFIX[^>]*>` (with a literal
`PREFIX` beginning with `<`): the leftmost occurrence of `PREFIX`
extended to the first following `>`; returns the text after that `>`.
When no occurrence completes with a `>` there is no match at all (a `>`
missing after the first occurrence is missing after every later one). -/
def findTagOpen (tagPrefix : List Char) (s : List Char) : Option (List Char) :=
  match splitFirst tagPrefix s with
  | none => none
  | some pr =>
    if (pr.2.dropWhile (fun d => !(d = '>'))).take 1 = ['>'] then
      some ((pr.2.dropWhile (fun d => !(d = '>'))).drop 1)
    else none

theorem findTagOpen_shorter {tagPrefix s tail : List Char}
    (h : findTagOpen tagPrefix s = some tail) : tail.length < s.length := by
  unfold findTagOpen at h
  split at h
  · cases h
  · rename_i pr hq
    have hlen := splitFirst_length tagPrefix s pr hq
    split at h
    · rename_i hd
      cases h
      have h1 : (pr.2.dropWhile (fun d => !(d = '>'))).length ≤ pr.2.length :=
        (List.dropWhile_suffix _).length_le
      have h2 : 1 ≤ (pr.2.dropWhile (fun d => !(d = '>'))).length := by
        cases hnil : pr.2.dropWhile (fun d => !(d = '>')) with
        | nil => rw [hnil] at hd; simp at hd
        | cons x xs => simp
      simp only [List.length_drop]
      omega
    · cases h

/-- The text after the leftmost `<w:t` occurrence (junk value when there is
none). -/
def wtOpenRest (s : List Char) : List Char := ((splitFirst (str "<w:t") s).getD ([], [])).2

/-- The text after the `>` closing the matched `<w:t...>` open tag. -/
def wtAfterGt (s : List Char) : List Char :=
  ((wtOpenRest s).dropWhile (fun d => !(d = '>'))).drop 1

theorem wtOpenRest_shorter {s : List Char} (h : ¬ splitFirst (str "<w:t") s = none) :
    (wtOpenRest s).length < s.length := by
  rcases hq : splitFirst (str "<w:t") s with _ | q
  · exact absurd hq h
  · have := splitFirst_some_shorter _ s q (by simp [str]) hq
    simpa [wtOpenRest, hq] using this

theorem wtAfterGt_le (s : List Char) : (wtAfterGt s).length ≤ (wtOpenRest s).length := by
  have := (List.dropWhile_suffix (l := wtOpenRest s) (fun d => !(d = '>'))).length_le
  simp only [wtAfterGt, List.length_drop]
  omega

/-- The matched-text loop of `/<w:t[^>]*>([^<]*)<\/w:t>/g` in `parseRuns`
(and the identical direct-text fallback): find the open tag, take the
text up to the next `<`, require the literal close tag there; on success
concatenate and resume after the close tag, on failure resume scanning
after the failed open-tag occurrence. -/
def extractTexts (s : List Char) : List Char :=
  if h : splitFirst (str "<w:t") s = none then []
  else if ((wtOpenRest s).dropWhile (fun d => !(d = '>'))).take 1 = ['>'] then
    if (str "</w:t>").isPrefixOf ((wtAfterGt s).dropWhile (fun d => !(d = '<'))) then
      (wtAfterGt s).takeWhile (fun d => !(d = '<'))
        ++ extractTexts (((wtAfterGt s).dropWhile (fun d => !(d = '<'))).drop 6)
    else extractTexts (wtOpenRest s)
  else []
termination_by s.length
decreasing_by
  · have h1 := wtOpenRest_shorter h
    have h2 := wtAfterGt_le s
    have h3 : ((wtAfterGt s).dropWhile (fun d => !(d = '<'))).length ≤ (wtAfterGt s).length :=
      (List.dropWhile_suffix _).length_le
    simp only [List.length_drop]
    omega
  · exact wtOpenRest_shorter h

/-- The text after the matched `<w:p...>` open tag (junk when absent). -/
def paraOpenTail (s : List Char) : List Char := (findTagOpen (str "<w:p") s).getD []

theorem paraOpenTail_shorter {s : List Char} (h : ¬ findTagOpen (str "<w:p") s = none) :
    (paraOpenTail s).length < s.length := by
  rcases hq : findTagOpen (str "<w:p") s with _ | t
  · exact absurd hq h
  · have := findTagOpen_shorter hq
    simpa [paraOpenTail, hq] using this

/-- The paragraph loop of `/<w:p[^>]*>([\s\S]*?)<\/w:p>/g`
(parseWordXmlToEditableHtml): leftmost open tag, lazily matched body up
to the first literal `</w:p>`, resuming after it; the list holds each
paragraph's inner content in order. -/
def parseParagraphs (s : List Char) : List (List Char) :=
  if h : findTagOpen (str "<w:p") s = none then []
  else if h2 : splitFirst (str "</w:p>") (paraOpenTail s) = none then []
  else
    ((splitFirst (str "</w:p>") (paraOpenTail s)).getD ([], [])).1
      :: parseParagraphs ((splitFirst (str "</w:p>") (paraOpenTail s)).getD ([], [])).2
termination_by s.length
decreasing_by
  have hlt := paraOpenTail_shorter h
  rcases hq2 : splitFirst (str "</w:p>") (paraOpenTail s) with _ | q
  · exact absurd hq2 h2
  · have hlen := splitFirst_length (str "</w:p>") (paraOpenTail s) q hq2
    simp only [hq2, Option.getD_some]
    simp [str] at hlen
    omega

/-- The text after the matched `<w:r...>` open tag (junk when absent). -/
def runOpenTail (s : List Char) : List Char := (findTagOpen (str "<w:r") s).getD []

theorem runOpenTail_shorter {s : List Char} (h : ¬ findTagOpen (str "<w:r") s = none) :
    (runOpenTail s).length < s.length := by
  rcases hq : findTagOpen (str "<w:r") s with _ | t
  · exact absurd hq h
  · have := findTagOpen_shorter hq
    simpa [runOpenTail, hq] using this

/-- The run loop of `/<w:r[^>]*>([\s\S]*?)<\/w:r>/g` inside `parseRuns`,
returning the run contents in order.  (Note the open-tag pattern also
matches `<w:rPr>`; inside a well-formed run that tag lies within the
lazily matched body, exactly as in the source.) -/
def parseRunBlocks (s : List Char) : List (List Char) :=
  if h : findTagOpen (str "<w:r") s = none then []
  else if h2 : splitFirst (str "</w:r>") (runOpenTail s) = none then []
  else
    ((splitFirst (str "</w:r>") (runOpenTail s)).getD ([], [])).1
      :: parseRunBlocks ((splitFirst (str "</w:r>") (runOpenTail s)).getD ([], [])).2
termination_by s.length
decreasing_by
  have hlt := runOpenTail_shorter h
  rcases hq2 : splitFirst (str "</w:r>") (runOpenTail s) with _ | q
  · exact absurd hq2 h2
  · have hlen := splitFirst_length (str "</w:r>") (runOpenTail s) q hq2
    simp only [hq2, Option.getD_some]
    simp [str] at hlen
    omega

/-- Rendering of a single run inside `parseRuns`: formatting flags by
`includes` checks on the run content, text from the `<w:t>` loop, and
HTML wrapping in the order underline, italic, bold (an empty text
contributes nothing: `if (text)`). -/
def renderRun (runContent : List Char) : List Char :=
  let isBold := containsSub (str "<w:b/>") runContent || containsSub (str "<w:b ") runContent
  let isItalic := containsSub (str "<w:i/>") runContent || containsSub (str "<w:i ") runContent
  let isUnderline := containsSub (str "<w:u ") runContent
  let text := extractTexts runContent
  if text = [] then []
  else
    let f0 := escapeHtml text
    let f1 := if isUnderline then str "<u>" ++ f0 ++ str "</u>" else f0
    let f2 := if isItalic then str "<i>" ++ f1 ++ str "</i>" else f1
    if isBold then str "<b>" ++ f2 ++ str "</b>" else f2

/-- Model of `parseRuns` (templateService.ts:109-153): concatenate the
rendered runs; when that is empty, fall back to the direct-text scan of
the whole paragraph content. -/
def parseRuns (paragraphXml : List Char) : List Char :=
  let result := ((parseRunBlocks paragraphXml).map renderRun).foldl (· ++ ·) []
  if result = [] then extractTexts paragraphXml else result

/-- The alignment detection of `parseWordXmlToEditableHtml`
(`includes` chain on the paragraph content). -/
def paragraphAlignment (paragraphContent : List Char) : List Char :=
  if containsSub (str "<w:jc w:val=\"center\"") paragraphContent then
    str "text-align: center;"
  else if containsSub (str "<w:jc w:val=\"right\"") paragraphContent then
    str "text-align: right;"
  else if containsSub (str "<w:jc w:val=\"both\"") paragraphContent then
    str "text-align: justify;"
  else []

/-- One paragraph's HTML contribution in `parseWordXmlToEditableHtml`. -/
def paragraphHtml (paragraphContent : List Char) : List Char :=
  let runs := parseRuns paragraphContent
  if !(trimJS runs = []) then
    let alignment := paragraphAlignment paragraphContent
    let style := if !(alignment = []) then (str " style=\"") ++ alignment ++ (str "\"") else []
    (str "<p") ++ style ++ (str ">") ++ runs ++ (str "</p>") ++ ['\n']
  else (str "<p><br></p>") ++ ['\n']

/-- The variant `xmlContent.replace(/<[^>]+>/g, ' ')` used by the
no-paragraph fallback (tags replaced by a space, not removed). -/
def stripTagsWithSpace (s : List Char) : List Char :=
  match s with
  | [] => []
  | c :: rest =>
    if h : c = '<' ∧ (rest.dropWhile (fun d => !(d = '>'))).take 1 = ['>']
           ∧ rest.takeWhile (fun d => !(d = '>')) ≠ [] then
      ' ' :: stripTagsWithSpace ((rest.dropWhile (fun d => !(d = '>'))).drop 1)
    else c :: stripTagsWithSpace rest
termination_by s.length
decreasing_by
  · simp only [List.length_drop, List.length_cons]
    exact lt_of_le_of_lt
      (le_trans (Nat.sub_le _ _) ((List.dropWhile_suffix _).length_le)) (by omega)
  · simp only [List.length_cons]
    omega

/-- The whitespace collapse `replace(/\s+/g, ' ')` of the fallback. -/
def collapseWs (s : List Char) : List Char :=
  match s with
  | [] => []
  | c :: rest =>
    if jsWhitespace c then ' ' :: collapseWs (rest.dropWhile jsWhitespace)
    else c :: collapseWs rest
termination_by s.length
decreasing_by
  · simp only [List.length_cons]
    exact Nat.lt_succ_of_le ((List.dropWhile_suffix _).length_le)
  · simp

/-- Model of `parseWordXmlToEditableHtml` (templateService.ts:66-104). -/
def parseWordXmlToEditableHtml (xmlContent : List Char) : List Char :=
  let html := ((parseParagraphs xmlContent).map paragraphHtml).foldl (· ++ ·) []
  if trimJS html = [] then
    let plainText := trimJS (collapseWs (stripTagsWithSpace xmlContent))
    (str "<p>") ++ escapeHtml plainText ++ (str "</p>")
  else html

/-- Result record of `extractWordContentAsHtml` (the source names the
second field `variables`, which is a reserved word here). -/
structure WordExtractResult where
  html : List Char
  extractedVariables : List (List Char)
  originalName : List Char
deriving DecidableEq

/-- The `templateUri.split('/').pop() || 'template.docx'` step. -/
def originalNameOf (templateUri : List Char) : List Char :=
  match (splitChar '/' templateUri).getLast? with
  | some last => if last = [] then str "template.docx" else last
  | none => str "template.docx"

/-- Model of `extractWordContentAsHtml` (templateService.ts:27-60), from
the opened zip archive onward: the archive is an association list of entry
names to contents; a missing `word/document.xml` throws the fixed message
(modelled as `Except.error`), which propagates to the caller. -/
def extractWordContentAsHtml (templateUri : List Char)
    (zipEntries : List (String × List Char)) : Except String WordExtractResult :=
  match zipEntries.lookup "word/document.xml" with
  | none => Except.error "No se encontró contenido en el documento Word"
  | some xmlContent =>
    let html := parseWordXmlToEditableHtml xmlContent
    Except.ok { html := html
                extractedVariables := extractVariablesFromHtml html
                originalName := originalNameOf templateUri }

/-- Model of `extractPlaceholdersFromTemplate` (contractBuilder.ts:197-242)
from the opened zip archive onward: a missing `word/document.xml` throws
the fixed message (the surrounding `catch` logs and rethrows, so the error
still propagates); otherwise all tags are stripped and the plain text is
scanned for `{identifier}` tokens, deduplicated in first-occurrence
order. -/
def extractPlaceholdersFromTemplate (zipEntries : List (String × List Char)) :
    Except String (List (List Char)) :=
  match zipEntries.lookup "word/document.xml" with
  | none => Except.error "No se encontró document.xml en el archivo"
  | some xmlContent => Except.ok (dedupFirst (scanVars (stripTags xmlContent)))

/-- Modelled from the spec: the sentence "returns the distinct identifiers
in first-occurrence order" as a recursive specification — keep the head,
then recur on the tail with all later duplicates of the head removed.
Used only to compare the code's accumulation loop against the spec's
wording. -/
def specDistinctFirst {α : Type} [DecidableEq α] (l : List α) : List α :=
  match l with
  | [] => []
  | x :: t => x :: specDistinctFirst (t.filter (fun y => decide (y ≠ x)))
termination_by l.length
decreasing_by
  have := List.length_filter_le (fun y => decide (y ≠ x)) t
  simp only [List.length_cons]
  omega

/-! ## Concrete data used by witnesses and counterexamples -/

/-- A Word document body in which the placeholder is split across two
differently styled runs: the opening brace and `guest` are plain text,
`Name` and the closing brace are bold. -/
def splitRunDoc : List Char :=
  str "<w:p><w:r><w:t>\x7bguest</w:t></w:r><w:r><w:rPr><w:b/></w:rPr><w:t>Name\x7d</w:t></w:r></w:p>"

/-- A demo booking overlapping the interval 5..12 (cancelled, other
property). -/
def demoBooking : Booking :=
  { id := "ext-1", propertyId := "p2", guestName := "Ana",
    startDate := some 8, endDate := some 20,
    source := BookingSource.booking, status := BookingStatus.cancelled }

/-- A demo booking touching 5..12 only at the boundary (ends exactly at
5). -/
def demoTouching : Booking :=
  { id := "ext-0", propertyId := "p1", guestName := "Luis",
    startDate := some 1, endDate := some 5,
    source := BookingSource.booking, status := BookingStatus.confirmed }

/-- A demo manual booking. -/
def demoManual : Booking :=
  { id := "manual-42", propertyId := "p1", guestName := "Eva",
    startDate := some 100, endDate := some 200,
    source := BookingSource.manual, status := BookingStatus.confirmed }

/-- Caller-supplied fields for a demo manual booking. -/
def demoInput : ManualBookingInput :=
  { propertyId := "p1", guestName := "Eva", startDate := some 1, endDate := some 2,
    status := BookingStatus.confirmed }

/-- An empty demo store. -/
def demoState0 : CalendarState := { bookings := [] }

/-- The booking created by `addManualBooking` on the demo input at time 7. -/
def demoCreated : Booking := (addManualBooking demoInput 7 demoState0).2

/-- A demo store holding `demoCreated`. -/
def demoState2 : CalendarState := { bookings := [demoCreated] }

/-- A demo iCal feed with two structurally incomplete events (the first
has no UID line, the second no DTEND line). -/
def demoInvalidFeed : List Char :=
  str "BEGIN:VCALENDAR\nBEGIN:VEVENT\nSUMMARY:A\nDTSTART:20240101\nDTEND:20240102\nEND:VEVENT\nBEGIN:VEVENT\nUID:u2\nSUMMARY:B\nDTSTART:20240101\nEND:VEVENT\nEND:VCALENDAR"

/-! ## Theorems -/

/-- The predicate selecting a conflicting booking in `checkConflict`: not
excluded, and overlapping the half-open candidate range. -/
def conflictPred (start endD : Option Int) (ex : Option String) (b : Booking) : Bool :=
  !matchesExclude ex b && (ltD start b.endDate && ltD b.startDate endD)

theorem ltD_irrefl (x : Option Int) : ltD x x = false := by
  cases x <;> simp [ltD]

theorem checkConflict_eq_find (bs : List Booking) (s e : Option Int) (ex : Option String) :
    checkConflict bs s e ex = bs.find? (conflictPred s e ex) := by
  induction bs with
  | nil => rfl
  | cons b rest ih =>
    by_cases hex : matchesExclude ex b
    · have hp : conflictPred s e ex b = false := by simp [conflictPred, hex]
      simp [checkConflict, hex, List.find?_cons, hp, ih]
    · by_cases hov : (ltD s b.endDate && ltD b.startDate e) = true
      · have hp : conflictPred s e ex b = true := by
          simp [conflictPred, hex, hov]
        simp [checkConflict, hex, hov, List.find?_cons, hp]
      · have hp : conflictPred s e ex b = false := by
          simp only [Bool.not_eq_true] at hov
          simp [conflictPred, hov]
        simp [checkConflict, hex, hov, List.find?_cons, hp, ih]

theorem checkConflict_some_decomp (s e : Option Int) (ex : Option String) (b : Booking) :
    ∀ bs : List Booking, checkConflict bs s e ex = some b →
      conflictPred s e ex b = true ∧
      ∃ pre suf, bs = pre ++ b :: suf ∧ ∀ a ∈ pre, conflictPred s e ex a = false := by
  intro bs
  induction bs with
  | nil => intro h; cases h
  | cons b0 rest ih =>
    intro h
    by_cases hex : matchesExclude ex b0
    · have h' : checkConflict rest s e ex = some b := by
        simpa [checkConflict, hex] using h
      obtain ⟨hp, pre, suf, hsplit, hprev⟩ := ih h'
      refine ⟨hp, b0 :: pre, suf, by simp [hsplit], ?_⟩
      intro a ha
      rcases List.mem_cons.mp ha with rfl | ha
      · simp [conflictPred, hex]
      · exact hprev a ha
    · by_cases hov : (ltD s b0.endDate && ltD b0.startDate e) = true
      · have hb : b0 = b := by
          have := h
          simp [checkConflict, hex, hov] at this
          exact this
        subst hb
        exact ⟨by simp [conflictPred, hex, hov], [], rest, rfl, by simp⟩
      · have h' : checkConflict rest s e ex = some b := by
          simpa [checkConflict, hex, hov] using h
        obtain ⟨hp, pre, suf, hsplit, hprev⟩ := ih h'
        refine ⟨hp, b0 :: pre, suf, by simp [hsplit], ?_⟩
        intro a ha
        rcases List.mem_cons.mp ha with rfl | ha
        · simp only [Bool.not_eq_true] at hov
          simp [conflictPred, hov]
        · exact hprev a ha

theorem matchesExclude_congr (ex : Option String) (b b' : Booking) (hid : b'.id = b.id) :
    matchesExclude ex b' = matchesExclude ex b := by
  cases ex <;> simp [matchesExclude, hid]

/-- C1.  For every booking list and candidate half-open range,
`checkConflict` returns a non-null booking iff some booking in the list,
other than one matched by the (non-empty) `excludeId`, satisfies the
half-open overlap test `start < otherEnd && end > otherStart`; intervals
that merely touch at a boundary never count as overlapping; and the
booking returned is the first overlapping one in list order (everything
before it in the list is excluded or non-overlapping). -/
theorem checkConflict_halfopen_first (bs : List Booking) (s e : Option Int)
    (ex : Option String) :
    ((checkConflict bs s e ex).isSome ↔
      ∃ b ∈ bs, matchesExclude ex b = false ∧ ltD s b.endDate = true ∧ ltD b.startDate e = true)
    ∧ (∀ b, checkConflict bs s e ex = some b →
        matchesExclude ex b = false ∧ ltD s b.endDate = true ∧ ltD b.startDate e = true ∧
        ∃ pre suf, bs = pre ++ b :: suf ∧
          ∀ a ∈ pre, matchesExclude ex a = true ∨ ltD s a.endDate = false ∨
            ltD a.startDate e = false)
    ∧ (∀ b ∈ bs, e = b.startDate ∨ s = b.endDate →
        (ltD s b.endDate && ltD b.startDate e) = false) := by
  refine ⟨?_, ?_, ?_⟩
  · rw [checkConflict_eq_find]
    rw [List.find?_isSome]
    constructor
    · rintro ⟨b, hb, hp⟩
      refine ⟨b, hb, ?_⟩
      simpa [conflictPred, Bool.and_eq_true, Bool.not_eq_true'] using hp
    · rintro ⟨b, hb, hp⟩
      refine ⟨b, hb, ?_⟩
      simp [conflictPred, Bool.and_eq_true, Bool.not_eq_true']
      exact ⟨hp.1, hp.2.1, hp.2.2⟩
  · intro b h
    obtain ⟨hp, pre, suf, hsplit, hprev⟩ := checkConflict_some_decomp s e ex b bs h
    have hp' : matchesExclude ex b = false ∧ ltD s b.endDate = true ∧ ltD b.startDate e = true := by
      simpa [conflictPred, Bool.and_eq_true, Bool.not_eq_true'] using hp
    refine ⟨hp'.1, hp'.2.1, hp'.2.2, pre, suf, hsplit, ?_⟩
    intro a ha
    have := hprev a ha
    simp only [conflictPred, Bool.and_eq_true, Bool.not_eq_true'] at this
    by_cases h1 : matchesExclude ex a = true
    · exact Or.inl h1
    · by_cases h2 : ltD s a.endDate = true
      · refine Or.inr (Or.inr ?_)
        simp only [Bool.not_eq_true] at h1
        cases h3 : ltD a.startDate e
        · rfl
        · exfalso
          rw [h1, h2, h3] at this
          simp at this
      · simp only [Bool.not_eq_true] at h2
        exact Or.inr (Or.inl h2)
  · intro b _ hb
    rcases hb with rfl | rfl
    · rw [ltD_irrefl]
      simp
    · rw [ltD_irrefl]
      simp

/-- Witness for C1 at concrete inputs: for the list
`[demoTouching, demoBooking]` and the candidate range 5..12, the conflict
returned is `demoBooking` (the touching booking does not overlap), and
the `isSome` characterisation instantiates. -/
theorem checkConflict_halfopen_first_witness :
    ((checkConflict [demoTouching, demoBooking] (some 5) (some 12) none).isSome ↔
      ∃ b ∈ [demoTouching, demoBooking], matchesExclude none b = false ∧
        ltD (some 5) b.endDate = true ∧ ltD b.startDate (some 12) = true) ∧
    checkConflict [demoTouching, demoBooking] (some 5) (some 12) none = some demoBooking := by
  constructor
  · exact (checkConflict_halfopen_first [demoTouching, demoBooking] (some 5) (some 12) none).1
  · decide

/-- C9.  `checkConflict` reads only a booking's `id`, `startDate` and
`endDate`: any rewriting of the other fields (status, property, guest,
source, price, notes) leaves its outcome unchanged; in particular an
overlapping booking that is cancelled or pending, or belongs to another
property, is still reported as a conflict. -/
theorem checkConflict_ignores_status_property :
    (∀ (f : Booking → Booking) (bs : List Booking) (s e : Option Int) (ex : Option String),
      (∀ b, (f b).id = b.id ∧ (f b).startDate = b.startDate ∧ (f b).endDate = b.endDate) →
      checkConflict (bs.map f) s e ex = (checkConflict bs s e ex).map f)
    ∧ (∀ (bs : List Booking) (s e : Option Int) (ex : Option String) (b : Booking),
        b ∈ bs → matchesExclude ex b = false →
        b.status = BookingStatus.cancelled ∨ b.status = BookingStatus.pending ∨
          b.propertyId ≠ "p1" →
        ltD s b.endDate = true → ltD b.startDate e = true →
        (checkConflict bs s e ex).isSome = true) := by
  constructor
  · intro f bs s e ex hf
    induction bs with
    | nil => rfl
    | cons b rest ih =>
      obtain ⟨hid, hsd, hed⟩ := hf b
      by_cases hex : matchesExclude ex b
      · have hex' : matchesExclude ex (f b) = true := by
          rw [matchesExclude_congr ex b (f b) hid]
          exact hex
        simp [checkConflict, hex, hex', ih]
      · have hex' : matchesExclude ex (f b) = false := by
          rw [matchesExclude_congr ex b (f b) hid]
          simpa using hex
        by_cases hov : (ltD s b.endDate && ltD b.startDate e) = true
        · simp [checkConflict, hex, hex', hsd, hed, hov]
        · simp only [Bool.not_eq_true] at hov
          simp [checkConflict, hex, hex', hsd, hed, hov, ih]
  · intro bs s e ex b hb hex _ h1 h2
    rw [checkConflict_eq_find, List.find?_isSome]
    exact ⟨b, hb, by simp [conflictPred, hex, h1, h2]⟩

/-- Witness for C9: the cancelled, other-property `demoBooking` overlapping
5..12 is still reported, and the invariance instantiates for the
status-erasing rewrite. -/
theorem checkConflict_ignores_status_property_witness :
    ((demoBooking ∈ [demoBooking] ∧ matchesExclude none demoBooking = false ∧
        (demoBooking.status = BookingStatus.cancelled ∨
          demoBooking.status = BookingStatus.pending ∨ demoBooking.propertyId ≠ "p1") ∧
        ltD (some 5) demoBooking.endDate = true ∧
        ltD demoBooking.startDate (some 12) = true)
      ∧ (checkConflict [demoBooking] (some 5) (some 12) none).isSome = true) := by
  refine ⟨⟨by decide, by decide, by decide, by decide, by decide⟩, ?_⟩
  exact checkConflict_ignores_status_property.2 [demoBooking] (some 5) (some 12) none demoBooking
    (by decide) (by decide) (by decide) (by decide) (by decide)

/-- C2.  A successful `syncFromUrl` leaves the store's booking list equal
to exactly the prior manual bookings (in their original relative order,
via `filter`) followed by all bookings converted from the freshly parsed
feed; every prior non-manual booking is discarded by construction, and no
error or rejection is produced regardless of any overlap between kept
manual bookings and new external ones (`syncError` is cleared and the
result reports success with no errors). -/
theorem syncFromUrl_success_merge (tz : Int) (st : CalendarState) (body : List Char)
    (src : ExternalSource) (nowIso : String) :
    ((syncFromUrl tz st (FetchOutcome.success body) src nowIso).1).bookings
      = st.bookings.filter (fun b => decide (b.source = BookingSource.manual))
        ++ iCalEventsToBookings tz (parseICalString body) src
    ∧ ((syncFromUrl tz st (FetchOutcome.success body) src nowIso).1).syncError = none
    ∧ ((syncFromUrl tz st (FetchOutcome.success body) src nowIso).1).lastSyncDate = some nowIso
    ∧ ((syncFromUrl tz st (FetchOutcome.success body) src nowIso).2).success = true
    ∧ ((syncFromUrl tz st (FetchOutcome.success body) src nowIso).2).errors = [] :=
  ⟨rfl, rfl, rfl, rfl, rfl⟩

/-- Witness for C2 at concrete inputs: state holding an overlapping manual
booking, synced against the empty feed. -/
theorem syncFromUrl_success_merge_witness :
    ((syncFromUrl 0 { bookings := [demoManual, demoBooking] }
        (FetchOutcome.success []) ExternalSource.booking "t").1).bookings
      = [demoManual, demoBooking].filter (fun b => decide (b.source = BookingSource.manual))
        ++ iCalEventsToBookings 0 (parseICalString []) ExternalSource.booking
    ∧ ((syncFromUrl 0 { bookings := [demoManual, demoBooking] }
        (FetchOutcome.success []) ExternalSource.booking "t").1).syncError = none :=
  ⟨(syncFromUrl_success_merge 0 { bookings := [demoManual, demoBooking] } []
      ExternalSource.booking "t").1,
   (syncFromUrl_success_merge 0 { bookings := [demoManual, demoBooking] } []
      ExternalSource.booking "t").2.1⟩

/-- C10.  Every booking created through `addManualBooking` has source
`manual` and id `manual-` followed by the creation timestamp, regardless
of the caller-supplied fields, and such a booking, whenever present in a
store, is kept by every subsequent successful `syncFromUrl` (which
discards only non-manual bookings). -/
theorem addManualBooking_manual_kept (input : ManualBookingInput) (nowMs : Int)
    (st : CalendarState) :
    ((addManualBooking input nowMs st).2).source = BookingSource.manual
    ∧ ((addManualBooking input nowMs st).2).id = "manual-" ++ toString nowMs
    ∧ ((addManualBooking input nowMs st).1).bookings
        = st.bookings ++ [(addManualBooking input nowMs st).2]
    ∧ ∀ (tz : Int) (st2 : CalendarState) (body : List Char) (src : ExternalSource)
        (nowIso : String),
        (addManualBooking input nowMs st).2 ∈ st2.bookings →
        (addManualBooking input nowMs st).2 ∈
          ((syncFromUrl tz st2 (FetchOutcome.success body) src nowIso).1).bookings := by
  refine ⟨rfl, rfl, rfl, ?_⟩
  intro tz st2 body src nowIso hmem
  have : ((syncFromUrl tz st2 (FetchOutcome.success body) src nowIso).1).bookings
      = st2.bookings.filter (fun b => decide (b.source = BookingSource.manual))
        ++ iCalEventsToBookings tz (parseICalString body) src := rfl
  rw [this]
  apply List.mem_append_left
  rw [List.mem_filter]
  exact ⟨hmem, by simp [addManualBooking]⟩

/-- Witness for C10 at concrete inputs, with the created booking placed in
a store and surviving a sync of the empty feed. -/
theorem addManualBooking_manual_kept_witness :
    ((addManualBooking demoInput 7 demoState0).2).source = BookingSource.manual
    ∧ (addManualBooking demoInput 7 demoState0).2 ∈
        ((syncFromUrl 0 demoState2 (FetchOutcome.success [])
          ExternalSource.booking "t").1).bookings :=
  ⟨(addManualBooking_manual_kept demoInput 7 demoState0).1,
   (addManualBooking_manual_kept demoInput 7 demoState0).2.2.2 0 demoState2 []
     ExternalSource.booking "t" (by decide)⟩

theorem readEventLine_uid_of_not_prefix (ev : PartialEvent) (l : List Char)
    (h : (str "UID:").isPrefixOf l = false) : (readEventLine ev l).uid = ev.uid := by
  simp [readEventLine, h, apply_ite PartialEvent.uid]

theorem readEventLine_dtstart_of_not_prefix (ev : PartialEvent) (l : List Char)
    (h : (str "DTSTART").isPrefixOf l = false) : (readEventLine ev l).dtstart = ev.dtstart := by
  simp [readEventLine, h, apply_ite PartialEvent.dtstart]

theorem readEventLine_dtend_of_not_prefix (ev : PartialEvent) (l : List Char)
    (h : (str "DTEND").isPrefixOf l = false) : (readEventLine ev l).dtend = ev.dtend := by
  simp [readEventLine, h, apply_ite PartialEvent.dtend]

theorem foldl_readEventLine_uid (lines : List (List Char)) :
    ∀ ev : PartialEvent, (∀ l ∈ lines, (str "UID:").isPrefixOf l = false) →
      (lines.foldl readEventLine ev).uid = ev.uid := by
  induction lines with
  | nil => intro ev _; rfl
  | cons l rest ih =>
    intro ev h
    rw [List.foldl_cons, ih _ (fun x hx => h x (List.mem_cons_of_mem l hx))]
    exact readEventLine_uid_of_not_prefix ev l (h l (List.mem_cons_self l rest))

theorem foldl_readEventLine_dtstart (lines : List (List Char)) :
    ∀ ev : PartialEvent, (∀ l ∈ lines, (str "DTSTART").isPrefixOf l = false) →
      (lines.foldl readEventLine ev).dtstart = ev.dtstart := by
  induction lines with
  | nil => intro ev _; rfl
  | cons l rest ih =>
    intro ev h
    rw [List.foldl_cons, ih _ (fun x hx => h x (List.mem_cons_of_mem l hx))]
    exact readEventLine_dtstart_of_not_prefix ev l (h l (List.mem_cons_self l rest))

theorem foldl_readEventLine_dtend (lines : List (List Char)) :
    ∀ ev : PartialEvent, (∀ l ∈ lines, (str "DTEND").isPrefixOf l = false) →
      (lines.foldl readEventLine ev).dtend = ev.dtend := by
  induction lines with
  | nil => intro ev _; rfl
  | cons l rest ih =>
    intro ev h
    rw [List.foldl_cons, ih _ (fun x hx => h x (List.mem_cons_of_mem l hx))]
    exact readEventLine_dtend_of_not_prefix ev l (h l (List.mem_cons_self l rest))

/-- C6.  A `VEVENT` block lacking a `UID:`, a `DTSTART` or a `DTEND` line
parses to no event (it is silently dropped), and a feed all of whose
blocks fail to parse yields the empty event sequence — `parseICalString`
is a total function, so no input raises an error. -/
theorem parseICalString_drops_incomplete (content feed : List Char) :
    (((∀ l ∈ splitLines content, (str "UID:").isPrefixOf l = false) ∨
      (∀ l ∈ splitLines content, (str "DTSTART").isPrefixOf l = false) ∨
      (∀ l ∈ splitLines content, (str "DTEND").isPrefixOf l = false)) →
      parseEventBlock content = none)
    ∧ ((∀ b ∈ (splitOnSep (str "BEGIN:VEVENT") feed).tail,
          parseEventBlock (cutAtEndMarker b) = none) →
        parseICalString feed = []) := by
  constructor
  · intro h
    unfold parseEventBlock finishEvent
    rcases h with h | h | h
    · rw [foldl_readEventLine_uid (splitLines content) {} h]
    · rw [foldl_readEventLine_dtstart (splitLines content) {} h]
      cases ((splitLines content).foldl readEventLine {}).uid <;> rfl
    · rw [foldl_readEventLine_dtend (splitLines content) {} h]
      cases ((splitLines content).foldl readEventLine {}).uid <;>
        cases ((splitLines content).foldl readEventLine {}).dtstart <;> rfl
  · intro h
    unfold parseICalString
    cases hsp : splitOnSep (str "BEGIN:VEVENT") feed with
    | nil => rfl
    | cons x blocks =>
      rw [hsp] at h
      simp only [List.tail_cons] at h
      simp only [List.filterMap_eq_nil_iff]
      exact h

/-- Witness for C6: a concrete feed whose first block lacks `UID` and whose
second lacks `DTEND` parses to the empty sequence. -/
theorem parseICalString_drops_incomplete_witness :
    (∀ b ∈ (splitOnSep (str "BEGIN:VEVENT") demoInvalidFeed).tail,
        parseEventBlock (cutAtEndMarker b) = none)
    ∧ parseICalString demoInvalidFeed = [] := by
  have hp : ∀ b ∈ (splitOnSep (str "BEGIN:VEVENT") demoInvalidFeed).tail,
      parseEventBlock (cutAtEndMarker b) = none := by
    simp only [demoInvalidFeed, str]
    simp [splitOnSep, splitFirst]
    decide
  exact ⟨hp, (parseICalString_drops_incomplete [] demoInvalidFeed).2 hp⟩

theorem digitChar_isDigit {m : Nat} (h : m < 10) : (Nat.digitChar m).isDigit = true := by
  interval_cases m <;> decide

theorem digitChar_toNat {m : Nat} (h : m < 10) : (Nat.digitChar m).toNat = 48 + m := by
  interval_cases m <;> decide

theorem isDigit_not_ws {c : Char} (h : c.isDigit = true) : jsWhitespace c = false := by
  unfold jsWhitespace
  cases hw : c.isWhitespace
  · rfl
  · exfalso
    simp only [Char.isWhitespace, Bool.or_eq_true, decide_eq_true_eq] at hw
    rcases hw with ((rfl | rfl) | rfl) | rfl <;> exact absurd h (by decide)

theorem isDigit_ne_signs {c : Char} (h : c.isDigit = true) :
    ¬(c = '-') ∧ ¬(c = '+') := by
  constructor <;> rintro rfl <;> exact absurd h (by decide)

theorem padNum_length (w n : Nat) : (padNum w n).length = w := by
  induction w generalizing n with
  | zero => rfl
  | succ w ih => simp [padNum, ih]

theorem padNum_digits (w n : Nat) : ∀ c ∈ padNum w n, c.isDigit = true := by
  induction w generalizing n with
  | zero => intro c hc; cases hc
  | succ w ih =>
    intro c hc
    rcases List.mem_append.mp hc with hc | hc
    · exact ih (n / 10) c hc
    · rcases List.mem_singleton.mp hc with rfl
      exact digitChar_isDigit (Nat.mod_lt n (by omega))

theorem dropWhile_eq_self_of_all {p : Char → Bool} {l : List Char}
    (h : ∀ c ∈ l, p c = false) : l.dropWhile p = l := by
  cases l with
  | nil => rfl
  | cons c t =>
    apply List.dropWhile_cons_of_neg
    simp [h c (List.mem_cons_self c t)]

theorem takeWhile_eq_self_of_all {p : Char → Bool} {l : List Char}
    (h : ∀ c ∈ l, p c = true) : l.takeWhile p = l := by
  induction l with
  | nil => rfl
  | cons c t ih =>
    rw [List.takeWhile_cons_of_pos (h c (List.mem_cons_self c t))]
    rw [ih (fun x hx => h x (List.mem_cons_of_mem c hx))]

theorem trimJS_of_digits {l : List Char} (h : ∀ c ∈ l, c.isDigit = true) :
    trimJS l = l := by
  unfold trimJS
  rw [dropWhile_eq_self_of_all (fun c hc => isDigit_not_ws (h c hc))]
  rw [dropWhile_eq_self_of_all (fun c hc => isDigit_not_ws (h c (List.mem_reverse.mp hc)))]
  exact List.reverse_reverse l

theorem padNum_foldl (w : Nat) :
    ∀ n acc, n < 10 ^ w →
      (padNum w n).foldl (fun acc c => 10 * acc + (c.toNat - 48)) acc = acc * 10 ^ w + n := by
  induction w with
  | zero =>
    intro n acc hn
    have : n = 0 := by simpa using hn
    subst this
    simp [padNum]
  | succ w ih =>
    intro n acc hn
    have hdiv : n / 10 < 10 ^ w := by
      rw [Nat.div_lt_iff_lt_mul (by omega)]
      calc n < 10 ^ (w + 1) := hn
        _ = 10 ^ w * 10 := by ring
    rw [padNum, List.foldl_append, ih (n / 10) acc hdiv]
    simp only [List.foldl_cons, List.foldl_nil]
    rw [digitChar_toNat (Nat.mod_lt n (by omega))]
    have : 48 + n % 10 - 48 = n % 10 := by omega
    rw [this]
    have hmod := Nat.div_add_mod n 10
    ring_nf
    omega

theorem digitsPrefixVal_padNum (w n : Nat) (hw : 0 < w) (hn : n < 10 ^ w) :
    digitsPrefixVal (padNum w n) = some n := by
  unfold digitsPrefixVal
  rw [takeWhile_eq_self_of_all (padNum_digits w n)]
  have hne : padNum w n ≠ [] := by
    intro h
    have := padNum_length w n
    rw [h] at this
    simp at this
    omega
  rw [if_neg hne]
  rw [padNum_foldl w n 0 hn]
  simp

theorem parseIntJS_padNum (w n : Nat) (hw : 0 < w) (hn : n < 10 ^ w) :
    parseIntJS (padNum w n) = some (n : Int) := by
  unfold parseIntJS
  have hdrop : (padNum w n).dropWhile jsWhitespace = padNum w n :=
    dropWhile_eq_self_of_all (fun c hc => isDigit_not_ws (padNum_digits w n c hc))
  simp only [hdrop]
  have hhead : ∀ c l, padNum w n = c :: l → ¬(c = '-') ∧ ¬(c = '+') := by
    intro c l hc
    have : c ∈ padNum w n := by rw [hc]; exact List.mem_cons_self c l
    exact isDigit_ne_signs (padNum_digits w n c this)
  cases hp : padNum w n with
  | nil =>
    exfalso
    have := padNum_length w n
    rw [hp] at this
    simp at this
    omega
  | cons c l =>
    obtain ⟨h1, h2⟩ := hhead c l hp
    rw [if_neg (by simp [h1]), if_neg (by simp [h2])]
    rw [← hp, digitsPrefixVal_padNum w n hw hn]
    simp

theorem splitFirst_concrete_colon (pre : List Char) (d : List Char)
    (hpre : ∀ c ∈ pre, ¬(c = ':')) :
    splitFirst (str ":") (pre ++ ':' :: d) = some (pre, d) := by
  induction pre with
  | nil =>
    simp only [List.nil_append, splitFirst]
    rw [if_pos (by simp [str])]
    simp [str]
  | cons c t ih =>
    have hc : ¬(c = ':') := hpre c (List.mem_cons_self c t)
    simp only [List.cons_append, splitFirst]
    rw [if_neg (by simp [str, List.isPrefixOf_iff_prefix, List.cons_prefix_cons]; intro h; exact absurd h.symm hc)]
    simp only [List.append_eq]
    rw [ih (fun x hx => hpre x (List.mem_cons_of_mem c hx))]
    rfl

theorem icalDateValue_of_colon (pre post : List Char) (hpre : ∀ c ∈ pre, ¬(c = ':')) :
    icalDateValue (pre ++ ':' :: post) = post := by
  unfold icalDateValue
  rw [splitFirst_concrete_colon pre post hpre]

theorem subStr_peel (k m : Nat) (l1 l2 : List Char) (h : l1.length = k) :
    subStr k m (l1 ++ l2) = l2.take (m - k) := by
  unfold subStr
  rw [List.drop_left' h]

/-- C7.  `parseICalDate` reads a DTSTART/DTEND value positionally in the
form `YYYYMMDD[THHmmssZ]`: an 8-character date-only value produces the
local-time midnight of that calendar day, while a longer date-time value
is interpreted as a UTC instant with hour and minute read from positions
9-13 (the JS month component is the month digits minus one). -/
theorem parseICalDate_positional (y mo d hr mi : Nat)
    (hy : y < 10000) (hmo : mo < 100) (hd : d < 100) (hh : hr < 100) (hmi : mi < 100) :
    parseICalDate (str "DTSTART;VALUE=DATE:" ++ (padNum 4 y ++ padNum 2 mo ++ padNum 2 d))
      = JSDate.localMidnight (some (y : Int)) (some ((mo : Int) - 1)) (some (d : Int))
    ∧ parseICalDate (str "DTEND:" ++ (padNum 4 y ++ padNum 2 mo ++ padNum 2 d
          ++ ('T' :: (padNum 2 hr ++ padNum 2 mi ++ str "00Z"))))
      = JSDate.utc (some (y : Int)) (some ((mo : Int) - 1)) (some (d : Int))
          (some (hr : Int)) (some (mi : Int)) := by
  have hdigits : ∀ c ∈ padNum 4 y ++ padNum 2 mo ++ padNum 2 d, c.isDigit = true := by
    intro c hc
    rcases List.mem_append.mp hc with hc | hc
    · rcases List.mem_append.mp hc with hc | hc
      · exact padNum_digits 4 y c hc
      · exact padNum_digits 2 mo c hc
    · exact padNum_digits 2 d c hc
  have hlen8 : (padNum 4 y ++ padNum 2 mo ++ padNum 2 d).length = 8 := by
    simp [padNum_length]
  constructor
  · have hval : icalDateValue
        (str "DTSTART;VALUE=DATE:" ++ (padNum 4 y ++ padNum 2 mo ++ padNum 2 d))
        = padNum 4 y ++ padNum 2 mo ++ padNum 2 d := by
      have heq : str "DTSTART;VALUE=DATE:" ++ (padNum 4 y ++ padNum 2 mo ++ padNum 2 d)
          = str "DTSTART;VALUE=DATE" ++ ':' :: (padNum 4 y ++ padNum 2 mo ++ padNum 2 d) := by
        simp [str]
      rw [heq, icalDateValue_of_colon _ _ (by decide)]
    have hds : icalDateStr
        (str "DTSTART;VALUE=DATE:" ++ (padNum 4 y ++ padNum 2 mo ++ padNum 2 d))
        = padNum 4 y ++ padNum 2 mo ++ padNum 2 d := by
      unfold icalDateStr
      rw [hval, trimJS_of_digits hdigits]
    unfold parseICalDate
    rw [hds, if_neg (by rw [hlen8]; omega)]
    have h1 : subStr 0 4 (padNum 4 y ++ padNum 2 mo ++ padNum 2 d) = padNum 4 y := by
      unfold subStr
      rw [List.drop_zero, List.append_assoc, List.take_left' (padNum_length 4 y)]
    have h2 : subStr 4 6 (padNum 4 y ++ padNum 2 mo ++ padNum 2 d) = padNum 2 mo := by
      have heq : padNum 4 y ++ padNum 2 mo ++ padNum 2 d
          = padNum 4 y ++ (padNum 2 mo ++ padNum 2 d) := by
        simp [List.append_assoc]
      rw [heq, subStr_peel 4 6 _ _ (padNum_length 4 y)]
      rw [show (6 : Nat) - 4 = 2 from rfl, List.take_left' (padNum_length 2 mo)]
    have h3 : subStr 6 8 (padNum 4 y ++ padNum 2 mo ++ padNum 2 d) = padNum 2 d := by
      rw [subStr_peel 6 8 _ _ (by simp [padNum_length])]
      rw [show (8 : Nat) - 6 = 2 from rfl]
      exact List.take_of_length_le (by rw [padNum_length])
    rw [h1, h2, h3,
        parseIntJS_padNum 4 y (by omega) (by omega),
        parseIntJS_padNum 2 mo (by omega) (by omega),
        parseIntJS_padNum 2 d (by omega) (by omega)]
    simp
  · have hws : ∀ c ∈ padNum 4 y ++ padNum 2 mo ++ padNum 2 d
        ++ ('T' :: (padNum 2 hr ++ padNum 2 mi ++ str "00Z")), jsWhitespace c = false := by
      intro c hc
      rcases List.mem_append.mp hc with hc | hc
      · exact isDigit_not_ws (hdigits c hc)
      · rcases List.mem_cons.mp hc with rfl | hc
        · decide
        · rcases List.mem_append.mp hc with hc | hc
          · rcases List.mem_append.mp hc with hc | hc
            · exact isDigit_not_ws (padNum_digits 2 hr c hc)
            · exact isDigit_not_ws (padNum_digits 2 mi c hc)
          · have hz : c ∈ str "00Z" := hc
            fin_cases hz <;> decide
    have hval : icalDateValue (str "DTEND:" ++ (padNum 4 y ++ padNum 2 mo ++ padNum 2 d
          ++ ('T' :: (padNum 2 hr ++ padNum 2 mi ++ str "00Z"))))
        = padNum 4 y ++ padNum 2 mo ++ padNum 2 d
          ++ ('T' :: (padNum 2 hr ++ padNum 2 mi ++ str "00Z")) := by
      have heq : str "DTEND:" ++ (padNum 4 y ++ padNum 2 mo ++ padNum 2 d
            ++ ('T' :: (padNum 2 hr ++ padNum 2 mi ++ str "00Z")))
          = str "DTEND" ++ ':' :: (padNum 4 y ++ padNum 2 mo ++ padNum 2 d
            ++ ('T' :: (padNum 2 hr ++ padNum 2 mi ++ str "00Z"))) := by
        simp [str]
      rw [heq, icalDateValue_of_colon _ _ (by decide)]
    have hds : icalDateStr (str "DTEND:" ++ (padNum 4 y ++ padNum 2 mo ++ padNum 2 d
          ++ ('T' :: (padNum 2 hr ++ padNum 2 mi ++ str "00Z"))))
        = padNum 4 y ++ padNum 2 mo ++ padNum 2 d
          ++ ('T' :: (padNum 2 hr ++ padNum 2 mi ++ str "00Z")) := by
      unfold icalDateStr
      rw [hval]
      unfold trimJS
      rw [dropWhile_eq_self_of_all hws]
      rw [dropWhile_eq_self_of_all (fun c hc => hws c (List.mem_reverse.mp hc))]
      exact List.reverse_reverse _
    have hlen : (padNum 4 y ++ padNum 2 mo ++ padNum 2 d
        ++ ('T' :: (padNum 2 hr ++ padNum 2 mi ++ str "00Z"))).length = 16 := by
      simp [padNum_length, str]
    unfold parseICalDate
    rw [hds, if_pos (by rw [hlen]; omega)]
    have h1 : subStr 0 4 (padNum 4 y ++ padNum 2 mo ++ padNum 2 d
        ++ ('T' :: (padNum 2 hr ++ padNum 2 mi ++ str "00Z"))) = padNum 4 y := by
      unfold subStr
      rw [List.drop_zero, List.append_assoc, List.append_assoc,
        List.take_left' (padNum_length 4 y)]
    have h2 : subStr 4 6 (padNum 4 y ++ padNum 2 mo ++ padNum 2 d
        ++ ('T' :: (padNum 2 hr ++ padNum 2 mi ++ str "00Z"))) = padNum 2 mo := by
      have heq : padNum 4 y ++ padNum 2 mo ++ padNum 2 d
            ++ ('T' :: (padNum 2 hr ++ padNum 2 mi ++ str "00Z"))
          = padNum 4 y ++ (padNum 2 mo ++ (padNum 2 d
            ++ ('T' :: (padNum 2 hr ++ padNum 2 mi ++ str "00Z")))) := by
        simp [List.append_assoc]
      rw [heq, subStr_peel 4 6 _ _ (padNum_length 4 y)]
      rw [show (6 : Nat) - 4 = 2 from rfl, List.take_left' (padNum_length 2 mo)]
    have h3 : subStr 6 8 (padNum 4 y ++ padNum 2 mo ++ padNum 2 d
        ++ ('T' :: (padNum 2 hr ++ padNum 2 mi ++ str "00Z"))) = padNum 2 d := by
      have heq : padNum 4 y ++ padNum 2 mo ++ padNum 2 d
            ++ ('T' :: (padNum 2 hr ++ padNum 2 mi ++ str "00Z"))
          = (padNum 4 y ++ padNum 2 mo) ++ (padNum 2 d
            ++ ('T' :: (padNum 2 hr ++ padNum 2 mi ++ str "00Z")))  := by
        simp [List.append_assoc]
      rw [heq, subStr_peel 6 8 _ _ (by simp [padNum_length])]
      rw [show (8 : Nat) - 6 = 2 from rfl, List.take_left' (padNum_length 2 d)]
    have h4 : subStr 9 11 (padNum 4 y ++ padNum 2 mo ++ padNum 2 d
        ++ ('T' :: (padNum 2 hr ++ padNum 2 mi ++ str "00Z"))) = padNum 2 hr := by
      have heq : padNum 4 y ++ padNum 2 mo ++ padNum 2 d
            ++ ('T' :: (padNum 2 hr ++ padNum 2 mi ++ str "00Z"))
          = ((padNum 4 y ++ padNum 2 mo ++ padNum 2 d) ++ ['T'])
            ++ (padNum 2 hr ++ (padNum 2 mi ++ str "00Z")) := by
        simp [List.append_assoc]
      rw [heq, subStr_peel 9 11 _ _ (by simp [padNum_length])]
      rw [show (11 : Nat) - 9 = 2 from rfl, List.take_left' (padNum_length 2 hr)]
    have h5 : subStr 11 13 (padNum 4 y ++ padNum 2 mo ++ padNum 2 d
        ++ ('T' :: (padNum 2 hr ++ padNum 2 mi ++ str "00Z"))) = padNum 2 mi := by
      have heq : padNum 4 y ++ padNum 2 mo ++ padNum 2 d
            ++ ('T' :: (padNum 2 hr ++ padNum 2 mi ++ str "00Z"))
          = (((padNum 4 y ++ padNum 2 mo ++ padNum 2 d) ++ ['T']) ++ padNum 2 hr)
            ++ (padNum 2 mi ++ str "00Z") := by
        simp [List.append_assoc]
      rw [heq, subStr_peel 11 13 _ _ (by simp [padNum_length])]
      rw [show (13 : Nat) - 11 = 2 from rfl, List.take_left' (padNum_length 2 mi)]
    rw [h1, h2, h3, h4, h5,
        parseIntJS_padNum 4 y (by omega) (by omega),
        parseIntJS_padNum 2 mo (by omega) (by omega),
        parseIntJS_padNum 2 d (by omega) (by omega),
        parseIntJS_padNum 2 hr (by omega) (by omega),
        parseIntJS_padNum 2 mi (by omega) (by omega)]
    simp

/-- Witness for C7 at 2024-01-10 and 2024-01-10T12:30:00Z. -/
theorem parseICalDate_positional_witness :
    parseICalDate (str "DTSTART;VALUE=DATE:" ++ (padNum 4 2024 ++ padNum 2 1 ++ padNum 2 10))
      = JSDate.localMidnight (some 2024) (some 0) (some 10)
    ∧ parseICalDate (str "DTEND:" ++ (padNum 4 2024 ++ padNum 2 1 ++ padNum 2 10
        ++ ('T' :: (padNum 2 12 ++ padNum 2 30 ++ str "00Z"))))
      = JSDate.utc (some 2024) (some 0) (some 10) (some 12) (some 30) := by
  have h := parseICalDate_positional 2024 1 10 12 30 (by omega) (by omega) (by omega)
    (by omega) (by omega)
  constructor
  · simpa using h.1
  · simpa using h.2

theorem foldl_dedup_eq {α : Type} [DecidableEq α] (l : List α) :
    ∀ acc : List α,
      l.foldl (fun acc x => if x ∈ acc then acc else acc ++ [x]) acc
      = acc ++ specDistinctFirst (l.filter (fun y => decide (y ∉ acc))) := by
  induction l with
  | nil =>
    intro acc
    simp [specDistinctFirst]
  | cons x t ih =>
    intro acc
    rw [List.foldl_cons, List.filter_cons]
    by_cases hx : x ∈ acc
    · rw [if_pos hx]
      have : (decide (x ∉ acc) : Bool) = false := by simp [hx]
      rw [this]
      simp only [Bool.false_eq_true, if_false]
      exact ih acc
    · rw [if_neg hx]
      have hdx : (decide (x ∉ acc) : Bool) = true := by simp [hx]
      rw [hdx]
      simp only [if_true]
      rw [ih (acc ++ [x])]
      have hspec : specDistinctFirst (x :: t.filter (fun y => decide (y ∉ acc)))
          = x :: specDistinctFirst ((t.filter (fun y => decide (y ∉ acc))).filter
              (fun y => decide (y ≠ x))) := by
        simp only [specDistinctFirst]
      rw [hspec, List.filter_filter]
      have hfilter : t.filter (fun y => decide (y ∉ acc ++ [x]))
          = t.filter (fun y => decide (y ≠ x) && decide (y ∉ acc)) := by
        apply List.filter_congr
        intro y _
        by_cases h1 : y = x
        · subst h1
          simp
        · by_cases h2 : y ∈ acc <;> simp [h1, h2]
      rw [hfilter, List.append_assoc, List.singleton_append]

theorem dedupFirst_eq_spec {α : Type} [DecidableEq α] (l : List α) :
    dedupFirst l = specDistinctFirst l := by
  unfold dedupFirst
  rw [foldl_dedup_eq l []]
  have : l.filter (fun y => decide (y ∉ ([] : List α))) = l := by
    apply List.filter_eq_self.mpr
    intro a _
    simp
  rw [this, List.nil_append]

theorem specDistinctFirst_mem {α : Type} [DecidableEq α] (l : List α) :
    ∀ x, x ∈ specDistinctFirst l ↔ x ∈ l := by
  induction l using specDistinctFirst.induct with
  | case1 => simp [specDistinctFirst]
  | case2 y t ih =>
    intro x
    simp only [specDistinctFirst, List.mem_cons]
    constructor
    · rintro (rfl | hx)
      · exact Or.inl rfl
      · have := (ih x).mp hx
        exact Or.inr (List.mem_of_mem_filter this)
    · rintro (rfl | hx)
      · exact Or.inl rfl
      · by_cases hxy : x = y
        · exact Or.inl hxy
        · refine Or.inr ((ih x).mpr ?_)
          rw [List.mem_filter]
          exact ⟨hx, by simp [hxy]⟩

theorem specDistinctFirst_nodup {α : Type} [DecidableEq α] (l : List α) :
    (specDistinctFirst l).Nodup := by
  induction l using specDistinctFirst.induct with
  | case1 => simp [specDistinctFirst]
  | case2 y t ih =>
    simp only [specDistinctFirst]
    rw [List.nodup_cons]
    refine ⟨?_, ih⟩
    intro hy
    have := (specDistinctFirst_mem _ y).mp hy
    rw [List.mem_filter] at this
    simp at this

theorem mem_takeWhile_pred {p : Char → Bool} :
    ∀ {l : List Char} {x : Char}, x ∈ l.takeWhile p → p x = true := by
  intro l
  induction l with
  | nil => intro x hx; cases hx
  | cons c t ih =>
    intro x hx
    by_cases hc : p c
    · rw [List.takeWhile_cons_of_pos hc] at hx
      rcases List.mem_cons.mp hx with rfl | hx
      · exact hc
      · exact ih hx
    · rw [List.takeWhile_cons_of_neg hc] at hx
      cases hx

theorem scanVars_idents (s : List Char) : ∀ x ∈ scanVars s, isIdentChars x = true := by
  induction s using scanVars.induct with
  | case1 =>
    intro x hx
    simp [scanVars] at hx
  | case2 =>
    intro x hx
    simp [scanVars] at hx
  | case3 a s h ih =>
    intro x hx
    have hx' : x ∈ (a :: s.takeWhile identTailChar)
        :: scanVars ((s.dropWhile identTailChar).drop 1) := by
      have hrw : scanVars ('{' :: a :: s) = (a :: s.takeWhile identTailChar)
          :: scanVars ((s.dropWhile identTailChar).drop 1) := by
        simp [scanVars, h.1, h.2]
      rw [hrw] at hx
      exact hx
    rcases List.mem_cons.mp hx' with rfl | hx'
    · show (identStartChar a && (s.takeWhile identTailChar).all identTailChar) = true
      rw [h.1]
      simp only [Bool.true_and]
      rw [List.all_eq_true]
      intro c' hc'
      exact mem_takeWhile_pred hc'
    · exact ih x hx'
  | case4 a s h ih =>
    intro x hx
    have hx' : x ∈ scanVars (a :: s) := by
      have hrw : scanVars ('{' :: a :: s) = scanVars (a :: s) := by
        simp only [scanVars]
        rw [dif_neg h]
        split <;> rfl
      rw [hrw] at hx
      exact hx
    exact ih x hx'
  | case5 a s hne ih =>
    intro x hx
    have hx' : x ∈ scanVars s := by
      have hrw : scanVars (a :: s) = scanVars s := by
        rw [scanVars.eq_def]
        simp [hne]
      rw [hrw] at hx
      exact hx
    exact ih x hx'

/-- C4.  Placeholder extraction returns the distinct matched identifiers in
first-occurrence order: the accumulation loop equals the recursive
keep-the-first-occurrence specification, the result has no duplicates,
contains exactly the matched identifiers, and every returned name is a
well-formed `[a-zA-Z_][a-zA-Z0-9_]*` identifier. -/
theorem extractVariables_distinct_first (html : List Char) :
    extractVariablesFromHtml html = specDistinctFirst (scanVars html)
    ∧ (extractVariablesFromHtml html).Nodup
    ∧ (∀ x, x ∈ extractVariablesFromHtml html ↔ x ∈ scanVars html)
    ∧ (∀ x ∈ extractVariablesFromHtml html, isIdentChars x = true) := by
  have heq : extractVariablesFromHtml html = specDistinctFirst (scanVars html) :=
    dedupFirst_eq_spec (scanVars html)
  refine ⟨heq, ?_, ?_, ?_⟩
  · rw [heq]
    exact specDistinctFirst_nodup (scanVars html)
  · intro x
    rw [heq]
    exact specDistinctFirst_mem (scanVars html) x
  · intro x hx
    rw [heq] at hx
    exact scanVars_idents html x ((specDistinctFirst_mem (scanVars html) x).mp hx)

/-- Witness for C4: a document text with a duplicated placeholder returns
it once, in first-occurrence order. -/
theorem extractVariables_distinct_first_witness :
    extractVariablesFromHtml (str "a {guestName} b {price} c {guestName}")
      = specDistinctFirst (scanVars (str "a {guestName} b {price} c {guestName}"))
    ∧ extractVariablesFromHtml (str "a {guestName} b {price} c {guestName}")
      = [str "guestName", str "price"] := by
  constructor
  · exact (extractVariables_distinct_first (str "a {guestName} b {price} c {guestName}")).1
  · simp [extractVariablesFromHtml, scanVars, dedupFirst, str, identStartChar, identTailChar]

/-- C8.  When the opened OOXML package has no `word/document.xml` entry,
both Word content extraction and placeholder extraction throw their fixed
error message — and they produce that error exactly when the entry is
missing; when the entry is present each returns a successful result (the
model is total past the check, so no partial result is ever returned in
place of the error). -/
theorem missing_document_xml_error (uri : List Char)
    (entries : List (String × List Char)) :
    (extractWordContentAsHtml uri entries
        = Except.error "No se encontró contenido en el documento Word"
      ↔ entries.lookup "word/document.xml" = none)
    ∧ (extractPlaceholdersFromTemplate entries
        = Except.error "No se encontró document.xml en el archivo"
      ↔ entries.lookup "word/document.xml" = none)
    ∧ (∀ xml, entries.lookup "word/document.xml" = some xml →
        (∃ r, extractWordContentAsHtml uri entries = Except.ok r)
        ∧ ∃ vs, extractPlaceholdersFromTemplate entries = Except.ok vs) := by
  cases hl : entries.lookup "word/document.xml" with
  | none =>
    refine ⟨?_, ?_, ?_⟩
    · simp [extractWordContentAsHtml, hl]
    · simp [extractPlaceholdersFromTemplate, hl]
    · intro xml hxml
      simp at hxml
  | some xml =>
    refine ⟨?_, ?_, ?_⟩
    · simp [extractWordContentAsHtml, hl]
    · simp [extractPlaceholdersFromTemplate, hl]
    · intro xml2 _
      constructor
      · exact ⟨{ html := parseWordXmlToEditableHtml xml
                 extractedVariables := extractVariablesFromHtml (parseWordXmlToEditableHtml xml)
                 originalName := originalNameOf uri },
          by simp [extractWordContentAsHtml, hl]⟩
      · exact ⟨dedupFirst (scanVars (stripTags xml)),
          by simp [extractPlaceholdersFromTemplate, hl]⟩

/-- Witness for C8: the empty archive errors with the fixed messages; an
archive holding a document body succeeds. -/
theorem missing_document_xml_error_witness :
    (extractWordContentAsHtml (str "file:///t.docx") []
        = Except.error "No se encontró contenido en el documento Word"
      ↔ ([] : List (String × List Char)).lookup "word/document.xml" = none)
    ∧ (([("word/document.xml", splitRunDoc)] : List (String × List Char)).lookup
          "word/document.xml" = some splitRunDoc
        → (∃ r, extractWordContentAsHtml (str "file:///t.docx")
              [("word/document.xml", splitRunDoc)] = Except.ok r)
          ∧ ∃ vs, extractPlaceholdersFromTemplate
              [("word/document.xml", splitRunDoc)] = Except.ok vs) :=
  ⟨(missing_document_xml_error (str "file:///t.docx") []).1,
   (missing_document_xml_error (str "file:///t.docx")
      [("word/document.xml", splitRunDoc)]).2.2 splitRunDoc⟩

/-- C5 counterexample.  The claim asserts that for every document with a
placeholder split across two separately-styled runs, placeholder
extraction does not recognize it.  This is false for the cited
`extractPlaceholdersFromTemplate` (contractBuilder.ts): its tag-stripping
pass deletes the run markup and thereby concatenates the run texts, so on
`splitRunDoc` (brace+`guest` plain, `Name`+brace bold) it returns exactly
`["guestName"]` — the name is present, not absent. -/
theorem split_run_found_by_stripping_extractor :
    extractPlaceholdersFromTemplate [("word/document.xml", splitRunDoc)]
      = Except.ok [str "guestName"] := by
  simp [extractPlaceholdersFromTemplate, splitRunDoc, stripTags, scanVars, dedupFirst, str,
        identStartChar, identTailChar, List.lookup]

/-- C5 amended.  On a document whose placeholder is split across two
separately-styled runs, the two extraction paths disagree: the
tag-stripping extractor (`extractPlaceholdersFromTemplate`) recognizes
the placeholder, while the HTML-pipeline extractor
(`extractWordContentAsHtml`, whose per-run formatting tags interrupt the
`{identifier}` token in the rendered HTML) does not return it. -/
theorem split_run_extractors_disagree :
    extractPlaceholdersFromTemplate [("word/document.xml", splitRunDoc)]
      = Except.ok [str "guestName"]
    ∧ (extractWordContentAsHtml (str "file:///t.docx")
        [("word/document.xml", splitRunDoc)]).map (fun r => r.extractedVariables)
      = Except.ok [] := by
  constructor
  · simp [extractPlaceholdersFromTemplate, splitRunDoc, stripTags, scanVars, dedupFirst, str,
          identStartChar, identTailChar, List.lookup]
  · simp [extractWordContentAsHtml, splitRunDoc, parseWordXmlToEditableHtml, parseParagraphs,
          paraOpenTail, findTagOpen, splitFirst, parseRunBlocks, runOpenTail, parseRuns,
          renderRun, extractTexts, wtOpenRest, wtAfterGt, containsSub, escapeHtml, replaceAll,
          paragraphHtml, paragraphAlignment, trimJS, jsWhitespace, extractVariablesFromHtml,
          scanVars, dedupFirst, identStartChar, identTailChar, str, List.lookup, Except.map]

theorem ident_chars_all (k : List Char) (h : isIdentChars k = true) :
    ∀ x ∈ k, identTailChar x = true := by
  cases k with
  | nil => intro x hx; cases hx
  | cons c rest =>
    unfold isIdentChars at h
    rw [Bool.and_eq_true] at h
    intro x hx
    rcases List.mem_cons.mp hx with rfl | hx
    · unfold identTailChar
      rw [h.1]
      simp
    · exact List.all_eq_true.mp h.2 x hx

theorem varToken_ne_nil (k : List Char) : varToken k ≠ [] := by simp [varToken]

theorem infix_iff_exists_drop {q s : List Char} : q <:+: s ↔ ∃ j, q <+: s.drop j := by
  constructor
  · rintro ⟨t, u, rfl⟩
    refine ⟨t.length, ?_⟩
    rw [show t ++ q ++ u = t ++ (q ++ u) from by simp, List.drop_left]
    exact List.prefix_append q u
  · rintro ⟨j, hj⟩
    exact hj.isInfix.trans (List.drop_suffix j s).isInfix

theorem infix_extend_right {l t u : List Char} (h : l <:+: t) : l <:+: t ++ u := by
  obtain ⟨x, y, rfl⟩ := h
  exact ⟨x, y ++ u, by simp⟩

theorem infix_extend_left {l t u : List Char} (h : l <:+: u) : l <:+: t ++ u := by
  obtain ⟨x, y, rfl⟩ := h
  exact ⟨t ++ x, y, by simp⟩

theorem infix_extend_cons {l u : List Char} (a : Char) (h : l <:+: u) : l <:+: a :: u := by
  have := infix_extend_left (t := [a]) h
  simpa using this

theorem token_body_prefix_eq : ∀ (b c rest : List Char),
    (∀ x ∈ b, identTailChar x = true) → (∀ x ∈ c, identTailChar x = true) →
    (b ++ ['}']) <+: (c ++ '}' :: rest) → b = c := by
  intro b
  induction b with
  | nil =>
    intro c rest _ hc hp
    cases c with
    | nil => rfl
    | cons c0 c' =>
      exfalso
      simp only [List.nil_append, List.cons_append, List.cons_prefix_cons] at hp
      obtain ⟨h1, -⟩ := hp
      have := hc c0 (List.mem_cons_self c0 c')
      rw [← h1] at this
      exact absurd this (by decide)
  | cons b0 b' ih =>
    intro c rest hb hc hp
    cases c with
    | nil =>
      exfalso
      simp only [List.cons_append, List.nil_append, List.cons_prefix_cons] at hp
      obtain ⟨h1, -⟩ := hp
      have := hb b0 (List.mem_cons_self b0 b')
      rw [h1] at this
      exact absurd this (by decide)
    | cons c0 c' =>
      simp only [List.cons_append, List.cons_prefix_cons] at hp
      obtain ⟨h1, h2⟩ := hp
      rw [h1]
      have := ih c' rest (fun x hx => hb x (List.mem_cons_of_mem b0 hx))
        (fun x hx => hc x (List.mem_cons_of_mem c0 hx)) h2
      rw [this]

theorem token_overlap {b c : List Char} (hb : isIdentChars b = true)
    (hc : isIdentChars c = true) {s : List Char} (hcp : varToken c <+: s)
    {j : Nat} (hjlt : j < (varToken c).length) (hbp : varToken b <+: s.drop j) :
    b = c ∧ j = 0 := by
  obtain ⟨rest, rfl⟩ := hcp
  rcases Nat.eq_zero_or_pos j with rfl | hj
  · refine ⟨?_, rfl⟩
    rw [List.drop_zero] at hbp
    unfold varToken at hbp
    simp only [List.cons_append, List.cons_prefix_cons] at hbp
    obtain ⟨-, hp⟩ := hbp
    rw [List.append_assoc, List.singleton_append] at hp
    exact token_body_prefix_eq b c rest (ident_chars_all b hb) (ident_chars_all c hc) hp
  · exfalso
    obtain ⟨t, ht⟩ := hbp
    have hhead : ((varToken c ++ rest).drop j).head? = some '{' := by
      rw [← ht]
      simp [varToken]
    rw [List.head?_drop] at hhead
    unfold varToken at hhead hjlt
    simp only [List.length_cons, List.length_append, List.length_singleton,
      List.length_nil] at hjlt
    rcases j with _ | j'
    · omega
    · simp only [List.cons_append, List.getElem?_cons_succ] at hhead
      have hj' : j' < c.length + 1 := by omega
      by_cases hcase : j' < c.length
      · rw [List.getElem?_append_left
          (by simp only [List.length_append, List.length_singleton, List.length_cons,
            List.length_nil]; omega)] at hhead
        rw [List.getElem?_append_left hcase] at hhead
        have hmem := List.getElem?_mem hhead
        have hid := ident_chars_all c hc '{' hmem
        exact absurd hid (by decide)
      · have hj'' : j' = c.length := by omega
        subst hj''
        rw [List.getElem?_append_left (by simp)] at hhead
        rw [List.getElem?_append_right (le_refl _)] at hhead
        simp at hhead

theorem replaceAll_skip (p r : List Char) :
    ∀ (n : Nat) (s : List Char), n ≤ s.length → (∀ j < n, ¬ p <+: s.drop j) →
      replaceAll p r s = s.take n ++ replaceAll p r (s.drop n) := by
  intro n
  induction n with
  | zero => intro s _ _; simp
  | succ n ih =>
    intro s hlen hno
    cases s with
    | nil => simp at hlen
    | cons a s' =>
      have h0 : ¬ p <+: (a :: s') := by
        have := hno 0 (Nat.succ_pos n)
        simpa using this
      have hstep : replaceAll p r (a :: s') = a :: replaceAll p r s' := by
        simp only [replaceAll]
        rw [if_neg ?_]
        rintro ⟨-, hpre⟩
        exact h0 (List.isPrefixOf_iff_prefix.mp hpre)
      rw [hstep]
      have hno' : ∀ j < n, ¬ p <+: s'.drop j := by
        intro j hj
        have := hno (j + 1) (by omega)
        simpa using this
      rw [ih s' (by simpa using hlen) hno']
      simp [List.take_succ_cons, List.drop_succ_cons]

theorem replaceAll_inserts (p r q : List Char) (hp : p ≠ []) :
    ∀ s, p <:+: s → q <:+: r → q <:+: replaceAll p r s := by
  intro s
  induction s using replaceAll.induct p r with
  | case1 =>
    intro hps _
    rw [List.infix_nil] at hps
    exact absurd hps hp
  | case2 a s hcond ih =>
    intro _ hqr
    have hstep : replaceAll p r (a :: s) = r ++ replaceAll p r ((a :: s).drop p.length) := by
      simp only [replaceAll]
      rw [if_pos hcond]
    rw [hstep]
    exact infix_extend_right hqr
  | case3 a s hcond ih =>
    intro hps hqr
    have hstep : replaceAll p r (a :: s) = a :: replaceAll p r s := by
      simp only [replaceAll]
      rw [if_neg hcond]
    rw [hstep]
    rcases List.infix_cons_iff.mp hps with hpre | hinf
    · exact absurd ⟨hp, List.isPrefixOf_iff_prefix.mpr hpre⟩ hcond
    · exact infix_extend_cons a (ih hinf hqr)

theorem replaceAll_preserves_general (p r q : List Char) (hp : p ≠ []) (hq : q ≠ [])
    (h1 : ∀ (s : List Char) (j : Nat), p <+: s → j < p.length → ¬ q <+: s.drop j)
    (h2 : ∀ (s : List Char) (i : Nat), q <+: s → 0 < i → i < q.length → ¬ p <+: s.drop i) :
    ∀ s, q <:+: s → q <:+: replaceAll p r s := by
  intro s
  induction s using replaceAll.induct p r with
  | case1 =>
    intro hqs
    rw [List.infix_nil] at hqs
    exact absurd hqs hq
  | case2 a s hcond ih =>
    intro hqs
    have hpp : p <+: (a :: s) := List.isPrefixOf_iff_prefix.mp hcond.2
    obtain ⟨j, hj⟩ := infix_iff_exists_drop.mp hqs
    have hjge : p.length ≤ j := by
      by_contra hlt
      push_neg at hlt
      exact h1 (a :: s) j hpp hlt hj
    have hq2 : q <:+: (a :: s).drop p.length := by
      apply infix_iff_exists_drop.mpr
      refine ⟨j - p.length, ?_⟩
      rw [List.drop_drop]
      rw [show p.length + (j - p.length) = j from by omega]
      exact hj
    have hstep : replaceAll p r (a :: s) = r ++ replaceAll p r ((a :: s).drop p.length) := by
      simp only [replaceAll]
      rw [if_pos hcond]
    rw [hstep]
    exact infix_extend_left (ih hq2)
  | case3 a s hcond ih =>
    intro hqs
    obtain ⟨j, hj⟩ := infix_iff_exists_drop.mp hqs
    rcases Nat.eq_zero_or_pos j with rfl | hjpos
    · rw [List.drop_zero] at hj
      have hno : ∀ i < q.length, ¬ p <+: (a :: s).drop i := by
        intro i hi
        rcases Nat.eq_zero_or_pos i with rfl | hipos
        · rw [List.drop_zero]
          rintro hpp
          exact hcond ⟨hp, List.isPrefixOf_iff_prefix.mpr hpp⟩
        · exact h2 (a :: s) i hj hipos hi
      have hskip := replaceAll_skip p r q.length (a :: s) hj.length_le hno
      have htake : (a :: s).take q.length = q := by
        obtain ⟨t, ht⟩ := hj
        rw [← ht, List.take_left]
      rw [htake] at hskip
      rw [hskip]
      exact infix_extend_right List.infix_rfl
    · have hstep : replaceAll p r (a :: s) = a :: replaceAll p r s := by
        simp only [replaceAll]
        rw [if_neg hcond]
      rw [hstep]
      have hq2 : q <:+: s := by
        apply infix_iff_exists_drop.mpr
        rcases j with _ | j'
        · omega
        · exact ⟨j', by simpa using hj⟩
      exact infix_extend_cons a (ih hq2)

theorem replaceAll_char_preserves (ch : Char) (r q : List Char) (hq : q ≠ [])
    (hqch : ∀ x ∈ q, ¬ x = ch) :
    ∀ s, q <:+: s → q <:+: replaceAll [ch] r s := by
  apply replaceAll_preserves_general [ch] r q (by simp) hq
  · intro s j hps hj hqp
    have hj0 : j = 0 := by
      simp only [List.length_singleton] at hj
      omega
    subst hj0
    rw [List.drop_zero] at hqp
    obtain ⟨t1, ht1⟩ := hps
    cases q with
    | nil => exact hq rfl
    | cons q0 q' =>
      obtain ⟨t2, ht2⟩ := hqp
      rw [← ht1] at ht2
      simp only [List.cons_append, List.singleton_append, List.cons.injEq] at ht2
      exact hqch q0 (List.mem_cons_self q0 q') ht2.1
  · intro s i hqp hipos hilt hpp
    obtain ⟨t, ht⟩ := hpp
    have hsi : s[i]? = some ch := by
      rw [← List.head?_drop, ← ht]
      simp
    obtain ⟨t2, ht2⟩ := hqp
    rw [← ht2] at hsi
    rw [List.getElem?_append_left hilt] at hsi
    exact hqch ch (List.getElem?_mem hsi) rfl

theorem replaceAll_token_preserves (b c : List Char) (hb : isIdentChars b = true)
    (hc : isIdentChars c = true) (hbc : ¬ b = c) (r : List Char) :
    ∀ s, varToken b <:+: s → varToken b <:+: replaceAll (varToken c) r s := by
  apply replaceAll_preserves_general (varToken c) r (varToken b)
    (varToken_ne_nil c) (varToken_ne_nil b)
  · intro s j hps hj hqp
    obtain ⟨heq, -⟩ := token_overlap hb hc hps hj hqp
    exact hbc heq
  · intro s i hqp hipos hilt hpp
    obtain ⟨-, hi0⟩ := token_overlap hc hb hqp hilt hpp
    omega

theorem varToken_chars_avoid (b : List Char) (hb : isIdentChars b = true) (ch : Char)
    (h1 : ¬ ch = '{') (h2 : ¬ ch = '}') (h3 : identTailChar ch = false) :
    ∀ x ∈ varToken b, ¬ x = ch := by
  intro x hx heq
  rw [heq] at hx
  unfold varToken at hx
  rcases List.mem_cons.mp hx with heq2 | hx
  · exact h1 heq2
  · rcases List.mem_append.mp hx with hx | hx
    · have := ident_chars_all b hb ch hx
      rw [this] at h3
      cases h3
    · exact h2 (List.mem_singleton.mp hx)

theorem escapeHtml_preserves_token (b v : List Char) (hb : isIdentChars b = true)
    (hv : varToken b <:+: v) : varToken b <:+: escapeHtml v := by
  unfold escapeHtml
  apply replaceAll_char_preserves '"' _ _ (varToken_ne_nil b)
    (varToken_chars_avoid b hb '"' (by decide) (by decide) (by decide))
  apply replaceAll_char_preserves '>' _ _ (varToken_ne_nil b)
    (varToken_chars_avoid b hb '>' (by decide) (by decide) (by decide))
  apply replaceAll_char_preserves '<' _ _ (varToken_ne_nil b)
    (varToken_chars_avoid b hb '<' (by decide) (by decide) (by decide))
  apply replaceAll_char_preserves '&' _ _ (varToken_ne_nil b)
    (varToken_chars_avoid b hb '&' (by decide) (by decide) (by decide))
  exact hv

theorem foldl_substitute_preserves (b : List Char) (hb : isIdentChars b = true)
    (l : List (List Char × List Char))
    (hkeys : ∀ kv ∈ l, isIdentChars kv.1 = true ∧ ¬ kv.1 = b) :
    ∀ acc, varToken b <:+: acc →
      varToken b <:+:
        l.foldl (fun acc kv => replaceAll (varToken kv.1) (escapeHtml kv.2) acc) acc := by
  induction l with
  | nil => intro acc h; simpa using h
  | cons kv t ih =>
    intro acc h
    rw [List.foldl_cons]
    apply ih (fun x hx => hkeys x (List.mem_cons_of_mem kv hx))
    obtain ⟨hkv1, hkv2⟩ := hkeys kv (List.mem_cons_self kv t)
    exact replaceAll_token_preserves b kv.1 hb hkv1 (fun heq => hkv2 heq.symm)
      (escapeHtml kv.2) acc h

/-- C3.  The variable substitution of `generatePdfFromTemplate` is one
sequential pass over the declared keys: if the value of key `a` contains
the literal token of an identifier `b` that is not itself a declared key,
then after the whole substitution pass the token still occurs,
unsubstituted, in the output — substituted text is never rescanned by a
pass that could replace it (only a later pass for a declared key `b`
could, which the hypothesis excludes). -/
theorem generatePdf_substitution_single_pass
    (html v : List Char) (vars : List (List Char × List Char)) (a b : List Char)
    (hkeys : ∀ kv ∈ vars, isIdentChars kv.1 = true)
    (hnodup : (vars.map Prod.fst).Nodup)
    (hmem : (a, v) ∈ vars)
    (hb : isIdentChars b = true)
    (hbv : varToken b <:+: v)
    (hbnot : ∀ kv ∈ vars, ¬ kv.1 = b)
    (ha : varToken a <:+: html) :
    varToken b <:+: generatePdfProcessedHtml html vars := by
  obtain ⟨l1, l2, rfl⟩ := List.append_of_mem hmem
  have hA : isIdentChars a = true := hkeys (a, v) (by simp)
  have hl1 : ∀ kv ∈ l1, isIdentChars kv.1 = true ∧ ¬ kv.1 = a := by
    intro kv hkv
    refine ⟨hkeys kv (by simp [hkv]), ?_⟩
    intro heq
    have hmap : (l1.map Prod.fst ++ a :: l2.map Prod.fst).Nodup := by
      simpa using hnodup
    rw [List.nodup_append] at hmap
    have hmem1 : kv.1 ∈ l1.map Prod.fst := List.mem_map_of_mem Prod.fst hkv
    rw [heq] at hmem1
    exact hmap.2.2 hmem1 (List.mem_cons_self a _)
  have hl2 : ∀ kv ∈ l2, isIdentChars kv.1 = true ∧ ¬ kv.1 = b := by
    intro kv hkv
    exact ⟨hkeys kv (by simp [hkv]), hbnot kv (by simp [hkv])⟩
  unfold generatePdfProcessedHtml
  rw [List.foldl_append, List.foldl_cons]
  apply foldl_substitute_preserves b hb l2 hl2
  exact replaceAll_inserts (varToken a) (escapeHtml v) (varToken b) (varToken_ne_nil a) _
    (foldl_substitute_preserves a hA l1 hl1 html ha)
    (escapeHtml_preserves_token b v hb hbv)

/-- Witness for C3 at concrete inputs: substituting `a` whose value carries
a literal undeclared token leaves that token in the output. -/
theorem generatePdf_substitution_single_pass_witness :
    varToken (str "b") <:+:
      generatePdfProcessedHtml (str "X{a}Y") [(str "a", str "u{b}w")] :=
  generatePdf_substitution_single_pass (str "X{a}Y") (str "u{b}w")
    [(str "a", str "u{b}w")] (str "a") (str "b")
    (by decide) (by decide) (by decide) (by decide) (by decide) (by decide) (by decide)

end AparGestion
